import Mathlib

/-!
Shallow embedding of the two batch scripts of the iMicroSeq data-portal
repository, `scripts/build_dashboard_data.py` (Dashboard Aggregator) and
`scripts/build_quant_tsv.py` (Quantitative Nester), together with theorems
settling the specification claims about them.

Python strings are modelled as lists of characters (`Str`), Python floats as
exact rationals (`ℚ`; every numeric literal appearing in the claims is exactly
representable), CSV rows as association lists from column name to raw value,
and Python dicts as insertion-ordered association lists.  Python's stable
`sorted`/`list.sort` is modelled by a stable insertion sort (`insSort`): a
stable sort by a fixed key is extensionally unique, so the model agrees with
any stable sorting algorithm.
-/

/-- Python `str` modelled as a list of characters. -/
abbrev Str := List Char

/-- Coerce a Lean string literal into the model type. -/
def cs (s : String) : Str := s.data

/-- The whitespace characters removed by Python `str.strip()` (and matched by
the regex class `\s`), restricted to the ASCII range that the data uses. -/
def isSpace (c : Char) : Bool :=
  c = ' ' || c = '\t' || c = '\n' || c = '\r' || c = '\x0b' || c = '\x0c'

/-- Python `str.strip()`: remove leading and trailing whitespace. -/
def pyStrip (l : Str) : Str :=
  ((l.dropWhile isSpace).reverse.dropWhile isSpace).reverse

/-- Python `"[" in out`: does the string contain a left bracket? -/
def hasLB (l : Str) : Bool := l.any (fun c => c = '[')

/-- One full pass of `re.sub(r"\[[^\]]*\]", "", s)`, written as a left-to-right
scan.  The first argument is the pending span: `none` when not inside a
bracket span, `some buf` when a `[` has been opened and `buf` holds the span's
characters so far in reverse.  A `[` opens a span running to the next `]`
(characters in between may themselves include `[`, as `[^\]]` allows them); a
closed span is dropped; a span left unclosed at the end of the input is
emitted unchanged, because the pattern requires a closing bracket, so the
regex matches nothing there. -/
def subAllAux : Option Str → Str → Str
  | none, [] => []
  | none, c :: rest =>
    if c = '[' then subAllAux (some [c]) rest else c :: subAllAux none rest
  | some buf, [] => buf.reverse
  | some buf, c :: rest =>
    if c = ']' then subAllAux none rest else subAllAux (some (c :: buf)) rest

/-- `re.sub(r"\[[^\]]*\]", "", s)`: remove every (leftmost, non-nested)
bracket span from the string. -/
def subAll (s : Str) : Str := subAllAux none s

/-- The `while "[" in out: out = re.sub(...)` loop of `trim_brackets`,
indexed by fuel; `none` models non-termination of the Python loop.  (When the
regex pass removes at least one span it shortens the string, and a pass that
removes nothing leaves the loop condition unchanged forever, so fuel equal to
the string length is exhaustive.) -/
def whileSub : Nat → Str → Option Str
  | 0, s => if hasLB s then none else some s
  | n + 1, s => if hasLB s then whileSub n (subAll s) else some s

/-- `trim_brackets` from `build_dashboard_data.py`: `None` maps to the empty
string; otherwise strip, repeatedly remove `[...]` spans while a `[` remains,
and strip again.  The result is `none` exactly when the Python loop does not
terminate. -/
def trim_brackets (s : Option Str) : Option Str :=
  match s with
  | none => some []
  | some s0 =>
    let t := pyStrip s0
    (whileSub t.length t).map pyStrip

/-- `\d` (ASCII digits, as in the data). -/
def isDigitB (c : Char) : Bool := c.isDigit

/-- Numeric value of a digit string. -/
def digitsVal (l : Str) : Nat :=
  l.foldl (fun n c => 10 * n + (c.toNat - '0'.toNat)) 0

/-- Python `str.lower()` (ASCII). -/
def lowerStr (l : Str) : Str := l.map Char.toLower

/-- Does the second string start with the first? -/
def startsWithB : Str → Str → Bool
  | [], _ => true
  | _ :: _, [] => false
  | a :: as, b :: bs => a = b && startsWithB as bs

/-- Python `needle in hay` substring test. -/
def hasSub (needle : Str) : Str → Bool
  | [] => startsWithB needle []
  | l@(_ :: rest) => startsWithB needle l || hasSub needle rest

/-- Prefix match of the regex group `(-?\d+(?:\.\d+)?)`: an optional minus
sign, a digit run, and an optional fractional part (the group `(?:\.\d+)?`
matches nothing when the dot is not followed by a digit).  Returns the value
of `float(...)` on the matched text, modelled exactly in `ℚ` (the decimal
string `I.F` denotes `mkRat (digits I ++ digits F) 10^|F|`), together with
the unmatched rest of the string; `none` when the regex fails to match. -/
def matchNumber (s : Str) : Option (ℚ × Str) :=
  let p := match s with
    | '-' :: rest => (true, rest)
    | _ => (false, s)
  let ds := p.2.takeWhile isDigitB
  let s2 := p.2.dropWhile isDigitB
  if ds.isEmpty then none
  else
    let q := match s2 with
      | '.' :: s3 =>
        let fs := s3.takeWhile isDigitB
        if fs.isEmpty then (mkRat (digitsVal ds) 1, s2)
        else (mkRat (digitsVal (ds ++ fs)) ((10 : Nat) ^ fs.length), s3.dropWhile isDigitB)
      | _ => (mkRat (digitsVal ds) 1, s2)
    some (if p.1 then -q.1 else q.1, q.2)

/-- Python `abs` on the modelled float. -/
def pyAbs (q : ℚ) : ℚ := if q < 0 then -q else q

/-- `parse_lat_lon` from `build_dashboard_data.py`: `None` for a missing
value, an empty or `"--"` string, or one containing `"not provided"`
(case-insensitively); otherwise match `(-?\d+(?:\.\d+)?)\s*([NSEW])?` at the
start of the stripped string (case-insensitively), force the sign from the
hemisphere letter when present (`S`/`W` negative, `N`/`E` positive), and
reject values outside the axis range. -/
def parse_lat_lon (raw : Option Str) (kind : String) : Option ℚ :=
  match raw with
  | none => none
  | some r =>
    let s := pyStrip r
    if s.isEmpty || s = cs "--" || hasSub (cs "not provided") (lowerStr s) then none
    else
      match matchNumber s with
      | none => none
      | some (v0, rest) =>
        let afterSp := rest.dropWhile isSpace
        let hemi : Option Char :=
          match afterSp with
          | c :: _ =>
            if c.toUpper = 'N' || c.toUpper = 'S' || c.toUpper = 'E' || c.toUpper = 'W'
            then some c.toUpper else none
          | [] => none
        let v : ℚ :=
          match hemi with
          | some h => if h = 'S' || h = 'W' then -(pyAbs v0) else pyAbs v0
          | none => v0
        if kind = "lat" ∧ (v < -90 ∨ v > 90) then none
        else if kind = "lon" ∧ (v < -180 ∨ v > 180) then none
        else some v

/-- A CSV row as produced by `csv.DictReader`: an association list from
column name to raw string value (`row.get` is association lookup). -/
abbrev Record := List (Str × Str)

/-- Association-list lookup, the model of Python `dict.get` / `row.get`. -/
def lookupA {α : Type} : List (Str × α) → Str → Option α
  | [], _ => none
  | (k', v) :: rest, k => if k' = k then some v else lookupA rest k

/-- `row.get(col) or ""`. -/
def getStr (r : Record) (k : Str) : Str := (lookupA r k).getD []

/-- Python dict assignment `d[k] = v` on an insertion-ordered dict: replace
the value in place when the key exists, append otherwise. -/
def insertOv {α : Type} : List (Str × α) → Str → α → List (Str × α)
  | [], k, v => [(k, v)]
  | (k', x) :: rest, k, v =>
    if k' = k then (k', v) :: rest else (k', x) :: insertOv rest k v

/-- `d[k] = d.get(k, 0) + 1` on an insertion-ordered counting dict. -/
def bump {α : Type} [DecidableEq α] : List (α × Nat) → α → List (α × Nat)
  | [], k => [(k, 1)]
  | (k', v) :: rest, k =>
    if k' = k then (k', v + 1) :: rest else (k', v) :: bump rest k

/-- Counting dict built over a list (`for x in l: d[x] = d.get(x, 0) + 1`). -/
def countsList {α : Type} [DecidableEq α] (l : List α) : List (α × Nat) :=
  l.foldl bump []

/-- Sum of the counts of a counting dict. -/
def sumV {α : Type} (l : List (α × Nat)) : Nat := (l.map Prod.snd).sum

/-- Stable insertion: place `a` after every element strictly below it. -/
def insL {α : Type} (lt : α → α → Bool) (a : α) : List α → List α
  | [] => [a]
  | b :: bs => if lt b a then b :: insL lt a bs else a :: b :: bs

/-- Stable insertion sort with strict comparison `lt`, the model of Python
`sorted` / `list.sort` (both stable; a stable sort by a fixed key function is
extensionally unique, so the model agrees with Python's algorithm). -/
def insSort {α : Type} (lt : α → α → Bool) : List α → List α
  | [] => []
  | a :: as => insL lt a (insSort lt as)

/-- The collection-date column. -/
def dateCol : Str := cs "sample collection start date"

/-- `re.match(r"^(\d{4})", date_str)` followed by `int(...)` on the stripped
date string: `some year` iff the string is non-empty and its first four
characters are digits. -/
def parseYear (d : Str) : Option Nat :=
  let s := pyStrip d
  if s.isEmpty then none
  else
    let ds := s.take 4
    if ds.length = 4 && ds.all isDigitB then some (digitsVal ds) else none

/-- The years parsed from the records' collection dates, in row order (the
loop body feeding `min_year` / `max_year` / `growth_by_year`). -/
def yearsOf (rows : List Record) : List Nat :=
  rows.filterMap (fun r => parseYear (getStr r dateCol))

/-- `min_year` accumulated by the row loop; the `float("inf")` start value is
modelled by `none`. -/
def listMin : List Nat → Option Nat
  | [] => none
  | y :: ys => some (match listMin ys with | none => y | some m => Nat.min y m)

/-- `max_year` accumulated by the row loop (`float("-inf")` start = `none`). -/
def listMax : List Nat → Option Nat
  | [] => none
  | y :: ys => some (match listMax ys with | none => y | some m => Nat.max y m)

/-- The cumulative loop `for y in range(...): cumulative += count; append`,
where the per-year count `growth_by_year.get(y, 0)` is the number of
occurrences of `y` among the parsed years. -/
def cumSeries (ys : List Nat) : Nat → List Nat → List (Nat × Nat)
  | _, [] => []
  | c, y :: rest => (y, c + ys.count y) :: cumSeries ys (c + ys.count y) rest

/-- `range(y_min, y_max + 1)`. -/
def rangeIncl (a b : Nat) : List Nat := List.range' a (b + 1 - a)

/-- The emitted growth series (pairs `(year, cumulative records)`), with the
script's sentinel defaults `y_min = y_max = 0` when no date parsed. -/
def growthSeries (rows : List Record) : List (Nat × Nat) :=
  let ys := yearsOf rows
  cumSeries ys 0 (rangeIncl ((listMin ys).getD 0) ((listMax ys).getD 0))

/-- `summary.timeSpan` (start, end): `null` when no date parsed. -/
def timeSpan (rows : List Record) : Option Nat × Option Nat :=
  (listMin (yearsOf rows), listMax (yearsOf rows))

/-- The "environmental site" column. -/
def envSiteCol : Str := cs "environmental site"

/-- Normalised site label `trim_brackets(row.get("environmental site")) or
"Unknown"`; `none` when the `trim_brackets` loop diverges on the field. -/
def normSite (r : Record) : Option Str :=
  (trim_brackets (lookupA r envSiteCol)).map
    (fun t => if t = [] then cs "Unknown" else t)

/-- All records' normalised site labels, in row order; `none` when any
record's site makes `trim_brackets` diverge. -/
def sitesOf : List Record → Option (List Str)
  | [] => some []
  | r :: rs =>
    match normSite r, sitesOf rs with
    | some s, some ss => some (s :: ss)
    | _, _ => none

/-- The descending-count sort key `key=lambda x: -x[1]` as a strict
comparison. -/
def ltCount {α : Type} (a b : α × Nat) : Bool := decide (b.2 < a.2)

/-- `top_sites`: the first 8 labels of the site-count dict sorted by
descending count (Python `sorted` is stable, so ties keep insertion
order). -/
def topSites (sites : List Str) : List Str :=
  ((insSort ltCount (countsList sites)).take 8).map Prod.fst

/-- The synthetic bucket label. -/
def otherLbl : Str := cs "Other"

/-- `site if site in top_sites else "Other"`. -/
def categoryOf (tops : List Str) (s : Str) : Str :=
  if s ∈ tops then s else otherLbl

/-- `category_counts`, keyed in insertion order. -/
def categoryCounts (sites : List Str) : List (Str × Nat) :=
  sites.foldl (fun acc s => bump acc (categoryOf (topSites sites) s)) []

/-- `x[0].lower() == "other"`. -/
def isOtherCI (k : Str) : Bool := lowerStr k = cs "other"

/-- The breakdown sort key `(x[0].lower() == "other", -x[1])` as a strict
lexicographic comparison: `False` sorts before `True`, ties compare by
descending count. -/
def ltBreak (a b : Str × Nat) : Bool :=
  (!isOtherCI a.1 && isOtherCI b.1) ||
    ((isOtherCI a.1 == isOtherCI b.1) && decide (b.2 < a.2))

/-- The emitted breakdown: `(category, value)` pairs of `category_counts`
sorted by the key above. -/
def breakdown (sites : List Str) : List (Str × Nat) :=
  insSort ltBreak (categoryCounts sites)

/-- Ten records whose sites are "other" (once), "a".."g" (once each) and
"h", "i" (forced into the synthetic "Other" bucket). -/
def C5rows : List Record :=
  [[(envSiteCol, cs "other")], [(envSiteCol, cs "a")], [(envSiteCol, cs "b")],
   [(envSiteCol, cs "c")], [(envSiteCol, cs "d")], [(envSiteCol, cs "e")],
   [(envSiteCol, cs "f")], [(envSiteCol, cs "g")], [(envSiteCol, cs "h")],
   [(envSiteCol, cs "i")]]

/-- The normalised sites of `C5rows`. -/
def C5sites : List Str :=
  [cs "other", cs "a", cs "b", cs "c", cs "d", cs "e", cs "f", cs "g",
   cs "h", cs "i"]

/-- Nine records with distinct sites "a".."i" (so "i" lands in "Other"). -/
def C5wrows : List Record :=
  [[(envSiteCol, cs "a")], [(envSiteCol, cs "b")], [(envSiteCol, cs "c")],
   [(envSiteCol, cs "d")], [(envSiteCol, cs "e")], [(envSiteCol, cs "f")],
   [(envSiteCol, cs "g")], [(envSiteCol, cs "h")], [(envSiteCol, cs "i")]]

/-- The normalised sites of `C5wrows`. -/
def C5wsites : List Str :=
  [cs "a", cs "b", cs "c", cs "d", cs "e", cs "f", cs "g", cs "h", cs "i"]

/-- The raw latitude column. -/
def latColName : Str := cs "geo loc latitude"

/-- The raw longitude column. -/
def lonColName : Str := cs "geo loc longitude"

/-- The state/province column. -/
def provColName : Str := cs "geo loc name (state/province/territory)"

/-- The province fallback table: name → (lat, lon). -/
abbrev PCTable := List (Str × (ℚ × ℚ))

/-- Coordinate resolution for one record: direct parse of both axes; when
either axis is unusable, the province fallback (a found fallback tuple is
always truthy and replaces both coordinates; otherwise the record keeps at
least one `None` axis and is not counted).  The stray debug
`print("hello")` on positive longitudes has no effect on the data and is
omitted. -/
def coordOf (pc : PCTable) (r : Record) : Option (ℚ × ℚ) :=
  match parse_lat_lon (lookupA r latColName) "lat",
      parse_lat_lon (lookupA r lonColName) "lon" with
  | some la, some lo => some (la, lo)
  | _, _ =>
    let sp := pyStrip (getStr r provColName)
    if sp = [] then none else lookupA pc sp

/-- The coordinates of the records that resolve one, in row order. -/
def resolvedCoords (pc : PCTable) (rows : List Record) : List (ℚ × ℚ) :=
  rows.filterMap (coordOf pc)

/-- `coord_counts`.  The script keys this dict by the string
`f"{lat},{lon}"` and parses the parts back when emitting; Python's float
`repr` is injective and round-trips, so keying by the exact value pair is
faithful. -/
def coordCounts (pc : PCTable) (rows : List Record) : List ((ℚ × ℚ) × Nat) :=
  countsList (resolvedCoords pc rows)

/-- The emitted coverage points `(pair, count)`, sorted by descending count
(stable). -/
def coveragePoints (pc : PCTable) (rows : List Record) : List ((ℚ × ℚ) × Nat) :=
  insSort ltCount (coordCounts pc rows)

/-- The reference table's name column. -/
def provNameCol : Str := cs "Province"

/-- The reference table's latitude column. -/
def latFieldCol : Str := cs "Latitude"

/-- The reference table's longitude column. -/
def lonFieldCol : Str := cs "Longitude"

/-- Python `float(str)` on the decimal literal forms: optional surrounding
whitespace, an optional sign, `digits[.digits]` or `.digits` or `digits.`,
and an optional decimal exponent; `none` models a raised `ValueError`.  The
special forms `inf`/`nan`/hex floats and underscore digit separators do not
occur in the reference data and are not modelled. -/
def pyFloat (s0 : Str) : Option ℚ :=
  let s := pyStrip s0
  let p := match s with
    | '+' :: rest => (false, rest)
    | '-' :: rest => (true, rest)
    | _ => (false, s)
  let ds := p.2.takeWhile isDigitB
  let s2 := p.2.dropWhile isDigitB
  let mant : Option (Nat × Nat × Str) :=
    match s2 with
    | '.' :: s3 =>
      let fs := s3.takeWhile isDigitB
      if ds.isEmpty && fs.isEmpty then none
      else some (digitsVal (ds ++ fs), fs.length, s3.dropWhile isDigitB)
    | _ => if ds.isEmpty then none else some (digitsVal ds, 0, s2)
  match mant with
  | none => none
  | some (m, fl, rest) =>
    let expPart : Option (Bool × Nat × Str) :=
      match rest with
      | 'e' :: r1 | 'E' :: r1 =>
        let q := match r1 with
          | '+' :: r2 => (false, r2)
          | '-' :: r2 => (true, r2)
          | _ => (false, r1)
        let es := q.2.takeWhile isDigitB
        if es.isEmpty then none
        else some (q.1, digitsVal es, q.2.dropWhile isDigitB)
      | _ => some (false, 0, rest)
    match expPart with
    | none => none
    | some (eneg, e, rest2) =>
      if rest2.isEmpty then
        let base : ℚ :=
          if eneg then mkRat m ((10 : Nat) ^ (fl + e))
          else mkRat (m * (10 : Nat) ^ e) ((10 : Nat) ^ fl)
        some (if p.1 then -base else base)
      else none

/-- `float(row.get("Latitude", 0))` and `float(row.get("Longitude", 0))`:
a missing column defaults to the number `0` (which cannot raise), a present
value goes through `float`; a raised error skips the row. -/
def pcLatLon (row : Record) : Option (ℚ × ℚ) :=
  let la := match lookupA row latFieldCol with
    | none => some 0
    | some s => pyFloat s
  let lo := match lookupA row lonFieldCol with
    | none => some 0
    | some s => pyFloat s
  match la, lo with
  | some a, some b => some (a, b)
  | _, _ => none

/-- `name.split(" [")[0]`: the part before the first occurrence of `" ["`
(the whole string when the separator does not occur). -/
def takeBeforeSep (sep : Str) : Str → Str
  | [] => []
  | l@(c :: rest) => if startsWithB sep l then [] else c :: takeBeforeSep sep rest

/-- `short = name.split(" [")[0].strip()`. -/
def shortName (name : Str) : Str := pyStrip (takeBeforeSep (cs " [") name)

/-- One loop iteration of `load_province_coords`: skip a blank name, skip a
row whose coordinates fail `float`, otherwise register the full name and —
when non-empty and different — the bracket-stripped short name. -/
def pcStep (coords : PCTable) (row : Record) : PCTable :=
  let name := pyStrip (getStr row provNameCol)
  if name = [] then coords
  else
    match pcLatLon row with
    | none => coords
    | some c =>
      let c1 := insertOv coords name c
      let short := shortName name
      if short ≠ [] ∧ short ≠ name then insertOv c1 short c else c1

/-- `load_province_coords` over the reference rows (an absent reference file
yields the empty row list, hence the empty table). -/
def load_province_coords (rows : List Record) : PCTable :=
  rows.foldl pcStep []

/-- The keys a reference row registers. -/
def regKeys (row : Record) : List Str :=
  let name := pyStrip (getStr row provNameCol)
  if name = [] then []
  else
    match pcLatLon row with
    | none => []
    | some _ =>
      let short := shortName name
      if short ≠ [] ∧ short ≠ name then [name, short] else [name]

/-- A reference table whose second entry reuses the short form of the first
entry's name. -/
def C10tab : List Record :=
  [[(provNameCol, cs "Ontario [CA-ON]"), (latFieldCol, cs "1"),
    (lonFieldCol, cs "2")],
   [(provNameCol, cs "Ontario"), (latFieldCol, cs "3"),
    (lonFieldCol, cs "4")]]

/-- A single well-formed reference row. -/
def C10wrow : Record :=
  [(provNameCol, cs "Ontario [CA-ON]"), (latFieldCol, cs "43.7"),
   (lonFieldCol, cs "-79.4")]

/-- A record whose collection date yields no parseable year. -/
def C1row : Record := [(dateCol, cs "unknown")]

/-- Records producing a gap year (2022) in the growth range. -/
def C7rows : List Record :=
  [[(dateCol, cs "2021-05-01")], [(dateCol, cs "2023-06-01")]]

-- ## Quantitative Nester (build_quant_tsv.py)

/-- `strip_brackets` from `build_quant_tsv.py`: a single regex pass followed
by `strip` (unlike the dashboard's looping `trim_brackets`). -/
def strip_brackets (s : Str) : Str := pyStrip (subAll s)

/-- `DATE_COL`. -/
def DATE_COL : Str := cs "sample collection start date"

/-- `NEST_ORDER`: the eight nesting key columns, outermost first. -/
def NEST_ORDER : List Str :=
  [cs "geo loc name (state/province/territory)",
   cs "geo loc name (city)",
   cs "geo loc name (site)",
   cs "assay type",
   cs "target taxonomic name",
   cs "gene symbol",
   cs "diagnostic measurement unit",
   cs "sample collection start date"]

/-- `VALUE_COL`. -/
def VALUE_COL : Str := cs "diagnostic measurement value"

/-- `METADATA_COLUMNS`. -/
def METADATA_COLUMNS : List Str :=
  [cs "sample collection start date",
   cs "geo loc name (site)",
   cs "geo loc name (state/province/territory)",
   cs "geo loc name (city)",
   cs "organism",
   cs "assay type"]

/-- `TARGET_BASE_NAMES`: the seven target-specific columns. -/
def TARGET_BASE_NAMES : List Str :=
  [cs "target taxonomic name",
   cs "assay target name",
   cs "gene symbol",
   cs "diagnostic target presence",
   cs "diagnostic measurement value",
   cs "diagnostic measurement unit",
   cs "diagnostic measurement method"]

/-- `meta_ok`: the metadata columns present in the CSV header. -/
def meta_ok (fieldnames : List Str) : List Str :=
  METADATA_COLUMNS.filter (fun c => decide (c ∈ fieldnames))

/-- The `"target"` bookkeeping key. -/
def targetKey : Str := cs "target"

/-- The column name `f"{base} {target_num}"`. -/
def slotCol (base : Str) (t : Nat) : Str := base ++ cs " " ++ cs (toString t)

/-- The dict assignments building one target sub-record, in program order:
the present metadata columns (stripped), the target number, then the seven
canonical target fields taken from the slot's suffixed columns
(stripped). -/
def mkOutAssigns (fieldnames : List Str) (row : Record) (t : Nat) :
    List (Str × Str) :=
  (meta_ok fieldnames).map (fun c => (c, pyStrip (getStr row c)))
    ++ [(targetKey, cs (toString t))]
    ++ TARGET_BASE_NAMES.map (fun b => (b, pyStrip (getStr row (slotCol b t))))

/-- One target sub-record (`out_row`), built by dict assignment. -/
def mkOut (fieldnames : List Str) (row : Record) (t : Nat) : Record :=
  (mkOutAssigns fieldnames row t).foldl (fun acc kv => insertOv acc kv.1 kv.2) []

/-- `for target_num in (1, 2, 3)`: the three sub-records of one source
record. -/
def expandRecord (fieldnames : List Str) (row : Record) : List Record :=
  [1, 2, 3].map (mkOut fieldnames row)

/-- All sub-records in row order (`out_rows` before filtering). -/
def out_rows (fieldnames : List Str) (rows : List Record) : List Record :=
  rows.flatMap (expandRecord fieldnames)

/-- `has_target_info`: does any of the seven target fields survive
stripping? -/
def has_target_info (r : Record) : Bool :=
  TARGET_BASE_NAMES.any (fun b => !(pyStrip (getStr r b)).isEmpty)

/-- The sub-records surviving the empty-target filter. -/
def surviving (fieldnames : List Str) (rows : List Record) : List Record :=
  (out_rows fieldnames rows).filter has_target_info

/-- Python string comparison (lexicographic by code point). -/
def strLtB : Str → Str → Bool
  | _, [] => false
  | [], _ :: _ => true
  | a :: as, b :: bs =>
    if a = b then strLtB as bs else decide (a.toNat < b.toNat)

/-- The date sort key `(not bool(d), d)` as a strict comparison: non-blank
dates first in ascending string order, blank dates last. -/
def ltDate (a b : Record) : Bool :=
  let da := pyStrip (getStr a DATE_COL)
  let db := pyStrip (getStr b DATE_COL)
  (!da.isEmpty && db.isEmpty) || ((da.isEmpty == db.isEmpty) && strLtB da db)

/-- The surviving sub-records sorted by date (stable). -/
def sortedSubs (fieldnames : List Str) (rows : List Record) : List Record :=
  insSort ltDate (surviving fieldnames rows)

/-- The blank sentinel label. -/
def sentBlank : Str := cs "(blank)"

/-- The missing-date sentinel label. -/
def sentNoDate : Str := cs "(no date)"

/-- The 8-part key path of a sub-record: strip, remove brackets, substitute
the sentinel on empty (the date column gets `"(no date)"`, the others
`"(blank)"`). -/
def pathOf (r : Record) : List Str :=
  NEST_ORDER.map (fun f =>
    let raw := pyStrip (getStr r f)
    if f = DATE_COL then
      (if strip_brackets raw = [] then sentNoDate else strip_brackets raw)
    else
      (if strip_brackets raw = [] then sentBlank else strip_brackets raw))

/-- The measurement value appended at the leaf. -/
def valueOf (r : Record) : Str :=
  let v := strip_brackets (pyStrip (getStr r VALUE_COL))
  if v = [] then sentBlank else v

/-- The depth-indexed nested-defaultdict type: level 0 is a leaf list of
values, level n+1 an insertion-ordered dict of subtrees (the source nests
eight `defaultdict` levels with `defaultdict(list)` innermost). -/
@[reducible] def NTreeN : Nat → Type
  | 0 => List Str
  | n + 1 => List (Str × NTreeN n)

/-- The empty tree at each depth. -/
def emptyT : (n : Nat) → NTreeN n
  | 0 => ([] : List Str)
  | n + 1 => ([] : List (Str × NTreeN n))

/-- Update-or-create at a key: apply `f` to the existing entry, or to the
fresh default `d` appended at the end (defaultdict access plus mutation). -/
def updateA {α : Type} : List (Str × α) → Str → (α → α) → α → List (Str × α)
  | [], k, f, d => [(k, f d)]
  | (k', x) :: rest, k, f, d =>
    if k' = k then (k', f x) :: rest else (k', x) :: updateA rest k f d

/-- Insert a value at an 8-part path (`d = d[level_key]` down the levels,
then `d[path_vals[-1]].append(value_val)`), creating levels on demand. -/
def insertT : (n : Nat) → NTreeN n → List Str → Str → NTreeN n
  | 0, vs, _, v => (vs : List Str) ++ [v]
  | _ + 1, m, [], _ => m
  | n + 1, m, k :: ks, v =>
    updateA m k (fun sub => insertT n sub ks v) (emptyT n)

/-- The nested structure built over the sub-records. -/
def buildNested (subs : List Record) : NTreeN 8 :=
  subs.foldl (fun t r => insertT 8 t (pathOf r) (valueOf r)) (emptyT 8)

/-- The rendered tree type: leaves become index-keyed mappings. -/
@[reducible] def RenderT : Nat → Type
  | 0 => List (Nat × Str)
  | n + 1 => List (Str × RenderT n)

/-- `{i: obj[i] for i in range(len(obj))}`. -/
def indexed (vs : List Str) : List (Nat × Str) := (List.range vs.length).zip vs

/-- `_sort_key`'s sentinel test `k in ("(no date)", "(blank)")`. -/
def isSent (k : Str) : Bool := k = sentNoDate || k = sentBlank

/-- `_sort_key` as a strict comparison: non-sentinel keys before sentinels,
ties in code-point string order. -/
def sentLt (a b : Str) : Bool :=
  (!isSent a && isSent b) || ((isSent a == isSent b) && strLtB a b)

/-- `to_sorted_dict`: recursively sort sibling keys (stably) by `_sort_key`
and render leaf lists as index-keyed mappings. -/
def to_sorted_dict : (n : Nat) → NTreeN n → RenderT n
  | 0, vs => indexed vs
  | n + 1, m =>
    insSort (fun a b => sentLt a.1 b.1)
      (m.map (fun kv => (kv.1, to_sorted_dict n kv.2)))

/-- The full Quantitative Nester pipeline on in-memory rows. -/
def quantTree (fieldnames : List Str) (rows : List Record) : RenderT 8 :=
  to_sorted_dict 8 (buildNested (sortedSubs fieldnames rows))

/-- The leaf list at a path in the un-rendered tree (`[]` when absent). -/
def leafAt : (n : Nat) → NTreeN n → List Str → List Str
  | 0, vs, _ => vs
  | _ + 1, _, [] => []
  | n + 1, m, k :: ks =>
    match lookupA m k with
    | some sub => leafAt n sub ks
    | none => []

/-- The leaf index-keyed mapping at a path in the rendered tree. -/
def leafAtR : (n : Nat) → RenderT n → List Str → List (Nat × Str)
  | 0, vs, _ => vs
  | _ + 1, _, [] => []
  | n + 1, m, k :: ks =>
    match lookupA m k with
    | some sub => leafAtR n sub ks
    | none => []

/-- Pairwise check as a boolean. -/
def pairwiseB {α : Type} (p : α → α → Bool) : List α → Bool
  | [] => true
  | a :: rest => rest.all (fun b => p a b) && pairwiseB p rest

/-- Key distinctness at every level of the nested tree. -/
def nodupT : (n : Nat) → NTreeN n → Prop
  | 0, _ => True
  | n + 1, m =>
    ((m : List (Str × NTreeN n)).map Prod.fst).Nodup ∧
      ∀ kv ∈ (m : List (Str × NTreeN n)), nodupT n kv.2

/-- Every level of a rendered tree lists its sibling keys in sorted order
(non-sentinels in code-point order first, sentinels last). -/
def orderedB : (n : Nat) → RenderT n → Bool
  | 0, _ => true
  | n + 1, m =>
    pairwiseB (fun a b => !sentLt b.1 a.1) m && m.all (fun kv => orderedB n kv.2)

/-- A source record whose only populated column is the slot-1 taxonomic
name. -/
def C4row : Record := [(cs "target taxonomic name 1", cs "X")]

/-- The 8-part path of `C4row`'s surviving sub-record. -/
def C4path : List Str :=
  [sentBlank, sentBlank, sentBlank, sentBlank, cs "X", sentBlank, sentBlank,
   sentNoDate]

-- ### Theorems (first batch: field normalizer and coordinate parser)

/-- `whileSub` only returns a string free of left brackets. -/
theorem whileSub_hasLB : ∀ {n : Nat} {s t : Str}, whileSub n s = some t → hasLB t = false := by
  intro n
  induction n with
  | zero =>
    intro s t h
    by_cases hs : hasLB s = true
    · simp [whileSub, hs] at h
    · rw [Bool.not_eq_true] at hs
      simp [whileSub, hs] at h
      rw [← h]
      exact hs
  | succ k ih =>
    intro s t h
    by_cases hs : hasLB s = true
    · simp [whileSub, hs] at h
      exact ih h
    · rw [Bool.not_eq_true] at hs
      simp [whileSub, hs] at h
      rw [← h]
      exact hs

/-- On a bracket-free string the loop exits immediately, at any fuel. -/
theorem whileSub_of_not_hasLB {n : Nat} {s : Str} (h : hasLB s = false) :
    whileSub n s = some s := by
  cases n <;> simp [whileSub, h]

/-- Characters of `pyStrip l` come from `l`. -/
theorem mem_pyStrip {c : Char} {l : Str} (h : c ∈ pyStrip l) : c ∈ l := by
  unfold pyStrip at h
  rw [List.mem_reverse] at h
  have h3 : c ∈ (l.dropWhile isSpace).reverse :=
    (List.dropWhile_sublist (l := (l.dropWhile isSpace).reverse) isSpace).mem h
  rw [List.mem_reverse] at h3
  exact (List.dropWhile_sublist (l := l) isSpace).mem h3

/-- Stripping cannot introduce a left bracket. -/
theorem hasLB_pyStrip {l : Str} (h : hasLB l = false) : hasLB (pyStrip l) = false := by
  rw [hasLB, ← Bool.not_eq_true, List.any_eq_true] at h ⊢
  push_neg at h ⊢
  intro x hx
  exact h x (mem_pyStrip hx)

/-- Dropping a prefix twice is the same as dropping it once. -/
theorem dropWhile_dropWhile (p : Char → Bool) (l : Str) :
    (l.dropWhile p).dropWhile p = l.dropWhile p := by
  induction l with
  | nil => rfl
  | cons a l ih =>
    by_cases h : p a = true
    · simp [List.dropWhile_cons, h, ih]
    · simp [List.dropWhile_cons, h]

/-- The head surviving `dropWhile` fails the predicate. -/
theorem head_dropWhile_false {p : Char → Bool} {l : Str} {c : Char}
    (h : (l.dropWhile p).head? = some c) : p c = false := by
  induction l with
  | nil => simp [List.dropWhile] at h
  | cons a l ih =>
    by_cases ha : p a = true
    · simp [List.dropWhile_cons, ha] at h
      exact ih (by simpa using h)
    · simp [List.dropWhile_cons, ha] at h
      rw [← h]
      simpa using ha

/-- If the head (when present) fails the predicate, `dropWhile` is the
identity. -/
theorem dropWhile_of_head {p : Char → Bool} {l : Str}
    (h : ∀ c, l.head? = some c → p c = false) : l.dropWhile p = l := by
  cases l with
  | nil => rfl
  | cons a l => simp [List.dropWhile_cons, h a rfl]

/-- A non-empty `dropWhile` keeps the last element of the list. -/
theorem getLast?_dropWhile {p : Char → Bool} :
    ∀ {l : Str}, l.dropWhile p ≠ [] → (l.dropWhile p).getLast? = l.getLast? := by
  intro l
  induction l with
  | nil => intro h; simp [List.dropWhile] at h
  | cons a l ih =>
    intro h
    by_cases ha : p a = true
    · rw [List.dropWhile_cons, if_pos ha] at h ⊢
      rcases hl : l with _ | ⟨b, bs⟩
      · rw [hl] at h; simp [List.dropWhile] at h
      · rw [← hl, ih h, hl, List.getLast?_cons_cons]
    · rw [List.dropWhile_cons, if_neg ha]

/-- `pyStrip` is idempotent (Python `strip` removes all surrounding
whitespace in one call). -/
theorem pyStrip_idem (l : Str) : pyStrip (pyStrip l) = pyStrip l := by
  unfold pyStrip
  set A := l.dropWhile isSpace with hA
  set B := A.reverse.dropWhile isSpace with hB
  have hBdrop : B.reverse.dropWhile isSpace = B.reverse := by
    apply dropWhile_of_head
    intro c hc
    rw [List.head?_reverse] at hc
    have hBne : B ≠ [] := by
      intro h0; rw [h0] at hc; simp at hc
    have h1 : B.getLast? = A.reverse.getLast? := by
      rw [hB]; exact getLast?_dropWhile (by rw [← hB]; exact hBne)
    rw [h1, List.getLast?_reverse] at hc
    exact head_dropWhile_false (p := isSpace) (l := l) (by rw [← hA]; exact hc)
  rw [hBdrop, List.reverse_reverse, hB, dropWhile_dropWhile, ← hB]

/-- A returned `trim_brackets` value is bracket-free and already stripped. -/
theorem trim_brackets_some {s0 r : Str} (h : trim_brackets (some s0) = some r) :
    hasLB r = false ∧ pyStrip r = r := by
  simp only [trim_brackets] at h
  rcases hw : whileSub (pyStrip s0).length (pyStrip s0) with _ | t
  · rw [hw] at h; simp at h
  · rw [hw] at h
    simp only [Option.map_some'] at h
    rw [Option.some_inj] at h
    constructor
    · rw [← h]; exact hasLB_pyStrip (whileSub_hasLB hw)
    · rw [← h]; exact pyStrip_idem t

/-- C2 (counterexample): on the nested input `"[[a]]"` the regex removes the
span from the first `[` to the first `]` (swallowing the inner group and the
outer opener), the loop then stops because no `[` remains, and the returned
string is `"]"` — which still contains a bracket character.  This refutes the
claim that for strings with nested bracket groups the result contains no
bracket characters. -/
theorem trim_brackets_nested_counterexample :
    trim_brackets (some (cs "[[a]]")) = some (cs "]") ∧
    (cs "]").any (fun c => c = '[' || c = ']') = true := by
  constructor <;> decide

/-- C2 (amended): `trim_brackets` is idempotent in the Kleisli sense — on
every input, feeding the result (when the loop terminates) back through the
function reproduces it — and a returned result never contains `'['`.  (The
original claim's second half fails: nested groups can leave a `']'` behind,
see the counterexample.) -/
theorem trim_brackets_idempotent (s : Option Str) :
    (trim_brackets s).bind (fun r => trim_brackets (some r)) = trim_brackets s ∧
    ∀ r, trim_brackets s = some r → hasLB r = false := by
  have key : ∀ r, trim_brackets s = some r → trim_brackets (some r) = some r := by
    intro r hr
    match s with
    | none =>
      simp only [trim_brackets, Option.some_inj] at hr
      rw [← hr]
      decide
    | some s0 =>
      obtain ⟨h1, h2⟩ := trim_brackets_some hr
      simp only [trim_brackets, h2, whileSub_of_not_hasLB h1, Option.map_some']
  constructor
  · rcases htb : trim_brackets s with _ | r
    · rfl
    · exact key r htb
  · intro r hr
    match s with
    | none =>
      simp only [trim_brackets, Option.some_inj] at hr
      rw [← hr]; decide
    | some s0 => exact (trim_brackets_some hr).1

/-- C2 (witness): the amended theorem applied at the concrete input
`" [a] b "`, whose result is `"b"`. -/
theorem trim_brackets_idempotent_witness :
    (trim_brackets (some (cs " [a] b "))).bind (fun r => trim_brackets (some r))
        = trim_brackets (some (cs " [a] b ")) ∧
    hasLB (cs "b") = false := by
  have h := trim_brackets_idempotent (some (cs " [a] b "))
  exact ⟨h.1, h.2 (cs "b") (by decide)⟩

/-- C3: the `while "[" in out` loop of `trim_brackets` does not terminate on
`"[abc"`: the regex pass leaves the string unchanged (a `[` with no matching
`]` matches nothing), so every iterate still contains `[` and the loop
condition never becomes false; accordingly the fuel-indexed model returns
`none` (non-termination). -/
theorem trim_brackets_diverges_on_unclosed :
    (∀ n : Nat, subAll^[n] (cs "[abc") = cs "[abc") ∧
    (∀ n : Nat, hasLB (subAll^[n] (cs "[abc")) = true) ∧
    trim_brackets (some (cs "[abc")) = none := by
  have hfix : ∀ n : Nat, subAll^[n] (cs "[abc") = cs "[abc" := by
    intro n
    induction n with
    | zero => rfl
    | succ k ih =>
      rw [Function.iterate_succ_apply', ih]
      decide
  refine ⟨hfix, ?_, by decide⟩
  intro n
  rw [hfix n]
  decide

/-- C8: the coordinate parser on the spec's example inputs: `"45.5 N"` parses
to `45.5`, `"45.5 S"` to `-45.5`, `"200 N"` is rejected as out of range for
latitude, and `""`, `"--"`, `"not provided"` are all rejected. -/
theorem parse_lat_lon_examples :
    parse_lat_lon (some (cs "45.5 N")) "lat" = some (mkRat 91 2) ∧
    parse_lat_lon (some (cs "45.5 S")) "lat" = some (-(mkRat 91 2)) ∧
    parse_lat_lon (some (cs "200 N")) "lat" = none ∧
    parse_lat_lon (some (cs "")) "lat" = none ∧
    parse_lat_lon (some (cs "--")) "lat" = none ∧
    parse_lat_lon (some (cs "not provided")) "lat" = none := by
  refine ⟨?_, ?_, ?_, ?_, ?_, ?_⟩ <;> decide

-- ### Theorems (second batch: growth series and time span)

/-- When no year parses, the script still emits the single sentinel point
`(0, 0)` (because `range(0, 0 + 1)` is `[0]`), and the time span is
`null`/`null`. -/
theorem growthSeries_of_no_years {rows : List Record} (h : yearsOf rows = []) :
    growthSeries rows = [(0, 0)] ∧ timeSpan rows = (none, none) := by
  unfold growthSeries timeSpan
  rw [h]
  exact ⟨rfl, rfl⟩

/-- C1 (counterexample): a record whose date is `"unknown"` yields no
parseable year, yet the emitted growth series is `[(0, 0)]`, not the empty
list claimed (`y_min`/`y_max` default to `0` and `range(0, 1)` produces one
point). -/
theorem growth_no_dates_counterexample :
    yearsOf [C1row] = [] ∧ growthSeries [C1row] = [(0, 0)] ∧
    growthSeries [C1row] ≠ [] := by
  refine ⟨by decide, by decide, by decide⟩

/-- C1 (amended): if no record's collection date yields a parseable 4-digit
year, the emitted growth series is the single point `(0, 0)` (not the empty
list) and the summary time span is `null`/`null` as claimed. -/
theorem growth_no_dates (rows : List Record) (h : yearsOf rows = []) :
    growthSeries rows = [(0, 0)] ∧ timeSpan rows = (none, none) :=
  growthSeries_of_no_years h

/-- C1 (witness): the amended claim at the concrete one-record input. -/
theorem growth_no_dates_witness :
    growthSeries [C1row] = [(0, 0)] ∧ timeSpan [C1row] = (none, none) :=
  growth_no_dates [C1row] (by decide)

/-- Length of the cumulative series. -/
theorem cumSeries_length (ys : List Nat) :
    ∀ (l : List Nat) (c : Nat), (cumSeries ys c l).length = l.length := by
  intro l
  induction l with
  | nil => intro c; rfl
  | cons a l ih => intro c; simp [cumSeries, ih]

/-- Element characterisation of the cumulative series: entry `i` pairs the
`i`-th year with the running total of the counts of the first `i + 1`
years. -/
theorem cumSeries_get? (ys : List Nat) :
    ∀ (l : List Nat) (c i y : Nat), l.get? i = some y →
      (cumSeries ys c l).get? i
        = some (y, c + ((l.take (i + 1)).map (fun z => ys.count z)).sum) := by
  intro l
  induction l with
  | nil => intro c i y h; simp at h
  | cons a l ih =>
    intro c i y h
    cases i with
    | zero =>
      simp only [List.get?] at h
      rw [Option.some_inj] at h
      subst h
      simp [cumSeries]
    | succ j =>
      simp only [List.get?] at h
      rw [cumSeries]
      simp only [List.get?]
      rw [ih (c + ys.count a) j y h]
      rw [List.take_succ_cons, List.map_cons, List.sum_cons]
      rw [Option.some_inj]
      refine congrArg (fun t => (y, t)) ?_
      omega

/-- Inverse characterisation: any entry of the series has the stated form. -/
theorem cumSeries_get?_inv {ys l : List Nat} {c i : Nat} {a : Nat × Nat}
    (h : (cumSeries ys c l).get? i = some a) :
    ∃ y, l.get? i = some y ∧
      a = (y, c + ((l.take (i + 1)).map (fun z => ys.count z)).sum) := by
  have hi : i < (cumSeries ys c l).length := (List.get?_eq_some.1 h).1
  rw [cumSeries_length] at hi
  have hy : l.get? i = some (l.get ⟨i, hi⟩) := List.get?_eq_get hi
  refine ⟨l.get ⟨i, hi⟩, hy, ?_⟩
  rw [cumSeries_get? ys l c i _ hy] at h
  rw [Option.some_inj] at h
  exact h.symm

/-- Prefix sums of a map are monotone in the prefix length. -/
theorem sum_take_map_mono (f : Nat → Nat) (l : List Nat) {i j : Nat} (h : i ≤ j) :
    ((l.take i).map f).sum ≤ ((l.take j).map f).sum := by
  have hj : j = i + (j - i) := by omega
  rw [hj, List.take_add, List.map_append, List.sum_append]
  omega

/-- The last entry of the cumulative series carries the total count. -/
theorem cumSeries_getLast (ys : List Nat) :
    ∀ (l : List Nat) (c : Nat), l ≠ [] →
      ∃ y, (cumSeries ys c l).getLast?
        = some (y, c + (l.map (fun z => ys.count z)).sum) := by
  intro l
  induction l with
  | nil => intro c h; exact absurd rfl h
  | cons a l ih =>
    intro c _
    cases l with
    | nil =>
      refine ⟨a, ?_⟩
      simp [cumSeries]
    | cons b bs =>
      obtain ⟨y, hy⟩ := ih (c + ys.count a) (by simp)
      refine ⟨y, ?_⟩
      have hstep : cumSeries ys c (a :: b :: bs)
          = (a, c + ys.count a) :: cumSeries ys (c + ys.count a) (b :: bs) := rfl
      have hne : cumSeries ys (c + ys.count a) (b :: bs)
          = (b, c + ys.count a + ys.count b)
              :: cumSeries ys (c + ys.count a + ys.count b) bs := rfl
      rw [hstep, hne, List.getLast?_cons_cons, ← hne, hy]
      simp only [Option.some_inj, Prod.mk.injEq, List.map_cons, List.sum_cons]
      exact ⟨trivial, by omega⟩

/-- `listMin` returns a lower bound. -/
theorem listMin_le : ∀ {ys : List Nat} {m : Nat}, listMin ys = some m →
    ∀ y ∈ ys, m ≤ y := by
  intro ys
  induction ys with
  | nil => intro m h; simp [listMin] at h
  | cons a ys ih =>
    intro m h y hy
    rw [listMin, Option.some_inj] at h
    rcases hm : listMin ys with _ | m2
    · rw [hm] at h
      have h2 : a = m := h
      have hya : y = a ∨ y ∈ ys := List.mem_cons.1 hy
      have hysnil : ys = [] := by
        cases ys with
        | nil => rfl
        | cons z zs => simp [listMin] at hm
      subst hysnil
      have hya2 : y = a := by simpa using hy
      omega
    · rw [hm] at h
      have h2 : Nat.min a m2 = m := h
      rcases List.mem_cons.1 hy with h1 | h1
      · subst h1
        exact h2 ▸ Nat.min_le_left _ _
      · have h3 := ih hm y h1
        exact le_trans (h2 ▸ Nat.min_le_right a m2) h3

/-- `listMax` returns an upper bound. -/
theorem listMax_ge : ∀ {ys : List Nat} {m : Nat}, listMax ys = some m →
    ∀ y ∈ ys, y ≤ m := by
  intro ys
  induction ys with
  | nil => intro m h; simp [listMax] at h
  | cons a ys ih =>
    intro m h y hy
    rw [listMax, Option.some_inj] at h
    rcases hm : listMax ys with _ | m2
    · rw [hm] at h
      have h2 : a = m := h
      have hysnil : ys = [] := by
        cases ys with
        | nil => rfl
        | cons z zs => simp [listMax] at hm
      subst hysnil
      have hya2 : y = a := by simpa using hy
      omega
    · rw [hm] at h
      have h2 : Nat.max a m2 = m := h
      rcases List.mem_cons.1 hy with h1 | h1
      · subst h1
        exact h2 ▸ Nat.le_max_left _ _
      · have h3 := ih hm y h1
        exact le_trans h3 (h2 ▸ Nat.le_max_right a m2)

/-- Sums of pointwise sums split. -/
theorem sum_map_add (f g : Nat → Nat) : ∀ (l : List Nat),
    (l.map (fun z => f z + g z)).sum = (l.map f).sum + (l.map g).sum := by
  intro l
  induction l with
  | nil => rfl
  | cons a l ih =>
    simp only [List.map_cons, List.sum_cons, ih]
    omega

/-- The sum of an equality indicator counts the occurrences. -/
theorem sum_map_indicator (a : Nat) : ∀ (l : List Nat),
    (l.map (fun z => if z = a then 1 else 0)).sum = l.count a := by
  intro l
  induction l with
  | nil => rfl
  | cons b l ih =>
    simp only [List.map_cons, List.sum_cons, ih, List.count_cons, beq_iff_eq]
    by_cases hb : b = a
    · simp only [hb, if_pos rfl]
      omega
    · rw [if_neg hb]
      omega

/-- Summing, over a duplicate-free list covering `ys`, the number of
occurrences in `ys` of each element gives the length of `ys`. -/
theorem sum_count_eq_length : ∀ (ys l : List Nat),
    (∀ y ∈ ys, y ∈ l) → l.Nodup →
    (l.map (fun z => ys.count z)).sum = ys.length := by
  intro ys
  induction ys with
  | nil =>
    intro l _ _
    apply List.sum_eq_zero
    intro x hx
    obtain ⟨z, _, hz⟩ := List.mem_map.1 hx
    rw [← hz, List.count_nil]
  | cons a ys ih =>
    intro l h1 h2
    have hcc : l.map (fun z => (a :: ys).count z)
        = l.map (fun z => ys.count z + if z = a then 1 else 0) := by
      apply List.map_congr_left
      intro z _
      rw [List.count_cons]
      congr 1
      by_cases hz : z = a
      · subst hz
        simp
      · have ha2 : ¬ ((a == z) = true) := by
          simp only [beq_iff_eq]
          exact fun h => hz h.symm
        rw [if_neg ha2, if_neg hz]
    rw [hcc, sum_map_add, sum_map_indicator,
        ih l (fun y hy => h1 y (List.mem_cons_of_mem a hy)) h2,
        List.count_eq_one_of_mem h2 (h1 a (List.mem_cons_self a ys))]
    simp

/-- Incrementing the prefix by one element adds that element's count. -/
theorem sum_take_map_succ (f : Nat → Nat) {l : List Nat} {i y : Nat}
    (h : l.get? i = some y) :
    ((l.take (i + 1)).map f).sum = ((l.take i).map f).sum + f y := by
  obtain ⟨hi, hget⟩ := List.get?_eq_some.1 h
  rw [List.map_take, List.map_take]
  have hlen : i < (l.map f).length := by simpa using hi
  rw [List.sum_take_succ (l.map f) i hlen]
  congr 1
  rw [List.getElem_map]
  rw [← hget]
  rfl

/-- Every parsed year lies in the emitted year range. -/
theorem yearsOf_mem_range {ys : List Nat} {y : Nat} (hy : y ∈ ys) :
    y ∈ rangeIncl ((listMin ys).getD 0) ((listMax ys).getD 0) := by
  cases ys with
  | nil => exact (List.not_mem_nil y hy).elim
  | cons a zs =>
    rcases hmin : listMin (a :: zs) with _ | m
    · simp [listMin] at hmin
    · rcases hmax : listMax (a :: zs) with _ | M
      · simp [listMax] at hmax
      · have h1 : m ≤ y := listMin_le hmin y hy
        have h2 : y ≤ M := listMax_ge hmax y hy
        unfold rangeIncl
        rw [List.mem_range'_1]
        simp only [Option.getD_some]
        omega

/-- The emitted year range is never empty (even with no parsed years the
script emits the single year 0). -/
theorem rangeIncl_minmax_ne_nil (ys : List Nat) :
    rangeIncl ((listMin ys).getD 0) ((listMax ys).getD 0) ≠ [] := by
  cases ys with
  | nil => simp [listMin, listMax, rangeIncl]
  | cons a zs =>
    rcases hmin : listMin (a :: zs) with _ | m
    · simp [listMin] at hmin
    · rcases hmax : listMax (a :: zs) with _ | M
      · simp [listMax] at hmax
      · have h1 : m ≤ a := listMin_le hmin a (List.mem_cons_self a zs)
        have h2 : a ≤ M := listMax_ge hmax a (List.mem_cons_self a zs)
        unfold rangeIncl
        rw [Ne, List.range'_eq_nil]
        simp only [Option.getD_some]
        omega

/-- C7: the growth series is monotonically non-decreasing in its cumulative
count, its final value equals the number of records with a parseable date
year, and a year with zero new records carries the same cumulative value as
the entry before it. -/
theorem growth_series_properties (rows : List Record) :
    (∀ i j a b, i ≤ j → (growthSeries rows).get? i = some a →
        (growthSeries rows).get? j = some b → a.2 ≤ b.2) ∧
    (growthSeries rows).getLast?.map Prod.snd = some (yearsOf rows).length ∧
    (∀ i a b, (growthSeries rows).get? i = some a →
        (growthSeries rows).get? (i + 1) = some b →
        (yearsOf rows).count b.1 = 0 → b.2 = a.2) := by
  have hgrow : growthSeries rows
      = cumSeries (yearsOf rows) 0
          (rangeIncl ((listMin (yearsOf rows)).getD 0)
            ((listMax (yearsOf rows)).getD 0)) := rfl
  refine ⟨?_, ?_, ?_⟩
  · intro i j a b hij ha hb
    rw [hgrow] at ha hb
    obtain ⟨ya, hya, haeq⟩ := cumSeries_get?_inv ha
    obtain ⟨yb, hyb, hbeq⟩ := cumSeries_get?_inv hb
    rw [haeq, hbeq]
    dsimp only
    have hmono := sum_take_map_mono (fun z => (yearsOf rows).count z)
      (rangeIncl ((listMin (yearsOf rows)).getD 0) ((listMax (yearsOf rows)).getD 0))
      (Nat.add_le_add_right hij 1)
    omega
  · obtain ⟨y, hy⟩ := cumSeries_getLast (yearsOf rows)
      (rangeIncl ((listMin (yearsOf rows)).getD 0) ((listMax (yearsOf rows)).getD 0))
      0 (rangeIncl_minmax_ne_nil (yearsOf rows))
    rw [hgrow, hy, Option.map_some']
    rw [Option.some_inj]
    dsimp only
    rw [sum_count_eq_length (yearsOf rows) _
      (fun z hz => yearsOf_mem_range hz)
      (List.nodup_range' _ _)]
    omega
  · intro i a b ha hb hcount
    rw [hgrow] at ha hb
    obtain ⟨ya, hya, haeq⟩ := cumSeries_get?_inv ha
    obtain ⟨yb, hyb, hbeq⟩ := cumSeries_get?_inv hb
    have hb1 : b.1 = yb := by rw [hbeq]
    rw [hb1] at hcount
    have hsum := sum_take_map_succ (fun z => (yearsOf rows).count z) hyb
    rw [haeq, hbeq]
    dsimp only
    dsimp only at hsum
    omega

/-- C7 (witness): the three conjuncts of `growth_series_properties`,
instantiated at two records dated 2021 and 2023, whose growth series is
`[(2021, 1), (2022, 1), (2023, 2)]` (2022 is a gap year). -/
theorem growth_series_properties_witness :
    ((2021, 1) : Nat × Nat).2 ≤ ((2023, 2) : Nat × Nat).2 ∧
    (growthSeries C7rows).getLast?.map Prod.snd = some (yearsOf C7rows).length ∧
    ((2022, 1) : Nat × Nat).2 = ((2021, 1) : Nat × Nat).2 := by
  have h := growth_series_properties C7rows
  exact ⟨h.1 0 2 (2021, 1) (2023, 2) (by omega) (by decide) (by decide),
    h.2.1,
    h.2.2 0 (2021, 1) (2022, 1) (by decide) (by decide) (by decide)⟩

-- ### Theorems (third batch: stable sort, counting dicts, breakdown)

/-- Inserting permutes with consing. -/
theorem insL_perm {α : Type} (lt : α → α → Bool) (a : α) :
    ∀ l : List α, (insL lt a l).Perm (a :: l) := by
  intro l
  induction l with
  | nil => exact List.Perm.refl _
  | cons b bs ih =>
    rw [insL]
    by_cases h : lt b a = true
    · rw [if_pos h]
      exact (ih.cons b).trans (List.Perm.swap a b bs)
    · rw [if_neg h]

/-- The insertion sort permutes its input. -/
theorem insSort_perm {α : Type} (lt : α → α → Bool) :
    ∀ l : List α, (insSort lt l).Perm l := by
  intro l
  induction l with
  | nil => exact List.Perm.refl _
  | cons a as ih => exact (insL_perm lt a (insSort lt as)).trans (ih.cons a)

/-- Inserting preserves sortedness (pairwise non-inversion), given that `lt`
is asymmetric and its negation is transitive. -/
theorem insL_pairwise {α : Type} (lt : α → α → Bool)
    (hA : ∀ x y, lt x y = true → lt y x = false)
    (hT : ∀ x y z, lt x y = false → lt y z = false → lt x z = false)
    (a : α) : ∀ l : List α, l.Pairwise (fun x y => lt y x = false) →
      (insL lt a l).Pairwise (fun x y => lt y x = false) := by
  intro l
  induction l with
  | nil => intro _; exact List.pairwise_singleton _ a
  | cons b bs ih =>
    intro hp
    rw [List.pairwise_cons] at hp
    obtain ⟨hb, hbs⟩ := hp
    rw [insL]
    by_cases h : lt b a = true
    · rw [if_pos h]
      rw [List.pairwise_cons]
      constructor
      · intro x hx
        have hmem := (insL_perm lt a bs).mem_iff.1 hx
        rcases List.mem_cons.1 hmem with h1 | h1
        · subst h1
          exact hA _ _ h
        · exact hb x h1
      · exact ih hbs
    · rw [if_neg h]
      rw [Bool.not_eq_true] at h
      rw [List.pairwise_cons]
      constructor
      · intro x hx
        rcases List.mem_cons.1 hx with h1 | h1
        · subst h1
          exact h
        · exact hT x b a (hb x h1) h
      · rw [List.pairwise_cons]
        exact ⟨hb, hbs⟩

/-- The insertion sort is sorted: no later element is strictly below an
earlier one. -/
theorem insSort_pairwise {α : Type} (lt : α → α → Bool)
    (hA : ∀ x y, lt x y = true → lt y x = false)
    (hT : ∀ x y z, lt x y = false → lt y z = false → lt x z = false) :
    ∀ l : List α, (insSort lt l).Pairwise (fun x y => lt y x = false) := by
  intro l
  induction l with
  | nil => exact List.Pairwise.nil
  | cons a as ih => exact insL_pairwise lt hA hT a (insSort lt as) ih

/-- A counting-dict increment adds one to the total. -/
theorem bump_sumV {α : Type} [DecidableEq α] :
    ∀ (l : List (α × Nat)) (k : α), sumV (bump l k) = sumV l + 1 := by
  intro l
  induction l with
  | nil => intro k; rfl
  | cons p rest ih =>
    intro k
    obtain ⟨k', v⟩ := p
    rw [bump]
    by_cases h : k' = k
    · rw [if_pos h]
      simp [sumV]
      omega
    · rw [if_neg h]
      simp only [sumV, List.map_cons, List.sum_cons]
      have := ih k
      simp only [sumV] at this
      omega

/-- Folding `bump` over a list counts its length. -/
theorem sumV_foldl_bump {β : Type} [DecidableEq β] :
    ∀ (l : List β) (acc : List (β × Nat)),
      sumV (l.foldl bump acc) = sumV acc + l.length := by
  intro l
  induction l with
  | nil => intro acc; simp
  | cons b bs ih =>
    intro acc
    rw [List.foldl_cons, ih (bump acc b), bump_sumV]
    simp
    omega

/-- The total of a counting dict is the number of counted elements. -/
theorem countsList_sumV {α : Type} [DecidableEq α] (l : List α) :
    sumV (countsList l) = l.length := by
  rw [countsList, sumV_foldl_bump]
  simp [sumV]

/-- A permutation preserves the count total. -/
theorem sumV_perm {α : Type} {l l' : List (α × Nat)} (h : l.Perm l') :
    sumV l = sumV l' := (h.map Prod.snd).sum_eq

/-- `bump` keeps the key list, appending the key only when new. -/
theorem bump_keys {α : Type} [DecidableEq α] :
    ∀ (l : List (α × Nat)) (k : α),
      (bump l k).map Prod.fst =
        if k ∈ l.map Prod.fst then l.map Prod.fst else l.map Prod.fst ++ [k] := by
  intro l
  induction l with
  | nil => intro k; simp [bump]
  | cons p rest ih =>
    intro k
    obtain ⟨k', v⟩ := p
    rw [bump]
    by_cases h : k' = k
    · rw [if_pos h]
      subst h
      simp
    · rw [if_neg h]
      simp only [List.map_cons, List.mem_cons]
      rw [ih k]
      by_cases hmem : k ∈ rest.map Prod.fst
      · rw [if_pos hmem, if_pos (Or.inr hmem)]
      · rw [if_neg hmem, if_neg (by
          intro hor
          rcases hor with h1 | h1
          · exact h h1.symm
          · exact hmem h1)]
        simp

/-- `bump` preserves key distinctness. -/
theorem bump_keys_nodup {α : Type} [DecidableEq α]
    {l : List (α × Nat)} (h : (l.map Prod.fst).Nodup) (k : α) :
    ((bump l k).map Prod.fst).Nodup := by
  rw [bump_keys]
  by_cases hmem : k ∈ l.map Prod.fst
  · rw [if_pos hmem]; exact h
  · rw [if_neg hmem]
    rw [List.nodup_append]
    refine ⟨h, List.nodup_singleton k, ?_⟩
    intro x hx hx1
    rw [List.mem_singleton] at hx1
    subst hx1
    exact hmem hx

/-- The keys of a counting dict built by folding are distinct. -/
theorem foldl_bump_keys_nodup {β : Type} [DecidableEq β] :
    ∀ (l : List β) (acc : List (β × Nat)), ((acc.map Prod.fst).Nodup) →
      (((l.foldl bump acc).map Prod.fst).Nodup) := by
  intro l
  induction l with
  | nil => intro acc h; exact h
  | cons b bs ih =>
    intro acc h
    rw [List.foldl_cons]
    exact ih (bump acc b) (bump_keys_nodup h b)

/-- `sitesOf` preserves the record count. -/
theorem sitesOf_length : ∀ {rows : List Record} {sites : List Str},
    sitesOf rows = some sites → sites.length = rows.length := by
  intro rows
  induction rows with
  | nil =>
    intro sites h
    simp only [sitesOf, Option.some_inj] at h
    rw [← h]
    rfl
  | cons r rs ih =>
    intro sites h
    rw [sitesOf] at h
    rcases h1 : normSite r with _ | s <;> rw [h1] at h
    · exact absurd h (by simp)
    · rcases h2 : sitesOf rs with _ | ss <;> rw [h2] at h
      · exact absurd h (by simp)
      · simp only [Option.some_inj] at h
        rw [← h]
        simp [ih h2]

/-- `ltBreak` is asymmetric. -/
theorem ltBreak_asymm : ∀ a b, ltBreak a b = true → ltBreak b a = false := by
  intro a b h
  rcases hfa : isOtherCI a.1 <;> rcases hfb : isOtherCI b.1 <;>
    simp [ltBreak, hfa, hfb] at h ⊢ <;> omega

/-- The negation of `ltBreak` is transitive. -/
theorem ltBreak_negtrans :
    ∀ x y z, ltBreak x y = false → ltBreak y z = false → ltBreak x z = false := by
  intro x y z hxy hyz
  rcases hfx : isOtherCI x.1 <;> rcases hfy : isOtherCI y.1 <;>
    rcases hfz : isOtherCI z.1 <;>
    simp [ltBreak, hfx, hfy, hfz] at hxy hyz ⊢ <;> omega

/-- C5 (counterexample): with ten records — two-letter sites "a".."g", one
record whose site is literally `"other"`, and two rare sites bucketed into
`"Other"` — the emitted breakdown ends with the entry `("other", 1)`, while
the synthetic bucket `("Other", 2)` (which matches "Other"
case-insensitively) sits second to last.  So an "Other" entry that is present
(case-insensitively) is not the last element, refuting the claim. -/
theorem breakdown_other_not_last :
    sitesOf C5rows = some C5sites ∧
    (otherLbl, 2) ∈ breakdown C5sites ∧
    isOtherCI otherLbl = true ∧
    (breakdown C5sites).getLast? = some (cs "other", 1) ∧
    ((cs "other", 1) : Str × Nat) ≠ (otherLbl, 2) := by
  refine ⟨by decide, by decide, by decide, by decide, by decide⟩

/-- C5 (amended): the sum of the emitted category counts equals the total
number of input records, and the entries matching "other" case-insensitively
form a suffix of the breakdown (every entry after an "other"-matching entry
also matches).  The original claim's stronger form — that an "Other" entry is
always the *last* element — fails when a top-8 site is itself named "other"
(see the counterexample): the synthetic bucket and such a site are ordered by
descending count among themselves. -/
theorem breakdown_properties (rows : List Record) (sites : List Str)
    (h : sitesOf rows = some sites) :
    sumV (breakdown sites) = rows.length ∧
    (∀ i j a b, i ≤ j → (breakdown sites).get? i = some a →
        (breakdown sites).get? j = some b →
        isOtherCI a.1 = true → isOtherCI b.1 = true) := by
  constructor
  · have h1 : sumV (breakdown sites) = sumV (categoryCounts sites) :=
      sumV_perm (insSort_perm ltBreak (categoryCounts sites))
    rw [h1, categoryCounts, ← List.foldl_map (categoryOf (topSites sites)) bump,
      ← countsList, countsList_sumV, List.length_map, sitesOf_length h]
  · intro i j a b hij ha hb hoa
    by_cases hji : i = j
    · subst hji
      rw [ha, Option.some_inj] at hb
      rw [← hb]
      exact hoa
    · have hlt : i < j := lt_of_le_of_ne hij hji
      have hpw := insSort_pairwise ltBreak ltBreak_asymm ltBreak_negtrans
        (categoryCounts sites)
      rw [List.pairwise_iff_get] at hpw
      obtain ⟨hi, hgi⟩ := List.get?_eq_some.1 ha
      obtain ⟨hj, hgj⟩ := List.get?_eq_some.1 hb
      have hba := hpw ⟨i, hi⟩ ⟨j, hj⟩ (Fin.mk_lt_mk.2 hlt)
      have hba2 : ltBreak ((breakdown sites).get ⟨j, hj⟩)
          ((breakdown sites).get ⟨i, hi⟩) = false := hba
      rw [hgi, hgj] at hba2
      rcases hfb : isOtherCI b.1
      · exfalso
        have hcontr : ltBreak b a = true := by
          simp [ltBreak, hfb, hoa]
        rw [hcontr] at hba2
        exact absurd hba2 (by simp)
      · rfl

/-- C5 (witness): the amended claim at nine records with distinct sites
"a".."i": the counts sum to 9 and the bucket entry at index 8 matches
"other" case-insensitively. -/
theorem breakdown_properties_witness :
    sumV (breakdown C5wsites) = C5wrows.length ∧ isOtherCI otherLbl = true := by
  have h := breakdown_properties C5wrows C5wsites (by decide)
  exact ⟨h.1,
    h.2 8 8 (otherLbl, 1) (otherLbl, 1) (le_refl 8) (by decide) (by decide)
      (by decide)⟩

-- ### Theorems (fourth batch: coverage points and the province table)

/-- C6: the sum of the emitted coverage-point counts equals the number of
records for which a coordinate was resolved (direct parse or province
fallback), and no two emitted points share the same (lat, lon) pair. -/
theorem coverage_points_properties (pc : PCTable) (rows : List Record) :
    sumV (coveragePoints pc rows) = (resolvedCoords pc rows).length ∧
    ((coveragePoints pc rows).map Prod.fst).Nodup := by
  constructor
  · exact (sumV_perm (insSort_perm ltCount (coordCounts pc rows))).trans
      (countsList_sumV (resolvedCoords pc rows))
  · have hperm := (insSort_perm ltCount (coordCounts pc rows)).map Prod.fst
    have hnodup : ((coordCounts pc rows).map Prod.fst).Nodup :=
      foldl_bump_keys_nodup (resolvedCoords pc rows) [] (by simp)
    exact hperm.symm.nodup hnodup

/-- Updating one key leaves that key bound to the new value. -/
theorem lookupA_insertOv_self {α : Type} :
    ∀ (l : List (Str × α)) (k : Str) (v : α),
      lookupA (insertOv l k v) k = some v := by
  intro l
  induction l with
  | nil => intro k v; simp [insertOv, lookupA]
  | cons p rest ih =>
    intro k v
    obtain ⟨k', x⟩ := p
    rw [insertOv]
    by_cases h : k' = k
    · rw [if_pos h, lookupA, if_pos h]
    · rw [if_neg h, lookupA, if_neg h]
      exact ih k v

/-- Updating one key leaves every other key unchanged. -/
theorem lookupA_insertOv_ne {α : Type} :
    ∀ (l : List (Str × α)) (k : Str) (v : α) (k' : Str), k' ≠ k →
      lookupA (insertOv l k v) k' = lookupA l k' := by
  intro l
  induction l with
  | nil =>
    intro k v k' hne
    show lookupA [(k, v)] k' = lookupA [] k'
    simp only [lookupA]
    rw [if_neg (fun h => hne h.symm)]
  | cons p rest ih =>
    intro k v k' hne
    obtain ⟨k0, x⟩ := p
    rw [insertOv]
    by_cases h : k0 = k
    · rw [if_pos h, lookupA, lookupA]
      by_cases h2 : k0 = k'
      · exact absurd (h2.symm.trans h) hne
      · rw [if_neg (h ▸ h2), if_neg h2]
    · rw [if_neg h, lookupA, lookupA]
      by_cases h2 : k0 = k'
      · rw [if_pos h2, if_pos h2]
      · rw [if_neg h2, if_neg h2]
        exact ih k v k' hne

/-- A loop iteration does not disturb keys it does not register. -/
theorem pcStep_preserves {coords : PCTable} {row : Record} {k : Str}
    (h : k ∉ regKeys row) :
    lookupA (pcStep coords row) k = lookupA coords k := by
  by_cases hname : pyStrip (getStr row provNameCol) = []
  · simp [pcStep, hname]
  · rcases hc : pcLatLon row with _ | c
    · simp [pcStep, hname, hc]
    · by_cases hshort : shortName (pyStrip (getStr row provNameCol)) ≠ [] ∧
          shortName (pyStrip (getStr row provNameCol)) ≠ pyStrip (getStr row provNameCol)
      · have hk1 : k ≠ pyStrip (getStr row provNameCol) := by
          intro hk
          exact h (by simp [regKeys, hname, hc, hshort, hk])
        have hk2 : k ≠ shortName (pyStrip (getStr row provNameCol)) := by
          intro hk
          exact h (by simp [regKeys, hname, hc, hshort, hk])
        simp only [pcStep, hname, hc, hshort, if_neg hname, if_true, if_false,
          ite_false]
        simp only [if_pos hshort]
        rw [lookupA_insertOv_ne _ _ _ _ hk2, lookupA_insertOv_ne _ _ _ _ hk1]
      · have hk1 : k ≠ pyStrip (getStr row provNameCol) := by
          intro hk
          exact h (by simp [regKeys, hname, hc, hshort, hk])
        simp only [pcStep, hname, hc, if_neg hname, if_false, ite_false]
        simp only [if_neg hshort]
        rw [lookupA_insertOv_ne _ _ _ _ hk1]

/-- A loop iteration registers the full name, and the differing short name,
to the row's coordinate. -/
theorem pcStep_sets (coords : PCTable) {row : Record} {c : ℚ × ℚ}
    (hname : pyStrip (getStr row provNameCol) ≠ [])
    (hc : pcLatLon row = some c) :
    lookupA (pcStep coords row) (pyStrip (getStr row provNameCol)) = some c ∧
    (shortName (pyStrip (getStr row provNameCol)) ≠ [] ∧
        shortName (pyStrip (getStr row provNameCol))
          ≠ pyStrip (getStr row provNameCol) →
      lookupA (pcStep coords row)
          (shortName (pyStrip (getStr row provNameCol))) = some c) := by
  by_cases hshort : shortName (pyStrip (getStr row provNameCol)) ≠ [] ∧
      shortName (pyStrip (getStr row provNameCol)) ≠ pyStrip (getStr row provNameCol)
  · constructor
    · simp only [pcStep, if_neg hname, hc]
      simp only [if_pos hshort]
      rw [lookupA_insertOv_ne _ _ _ _ (Ne.symm hshort.2)]
      exact lookupA_insertOv_self _ _ _
    · intro _
      simp only [pcStep, if_neg hname, hc]
      simp only [if_pos hshort]
      exact lookupA_insertOv_self _ _ _
  · constructor
    · simp only [pcStep, if_neg hname, hc]
      simp only [if_neg hshort]
      exact lookupA_insertOv_self _ _ _
    · intro hcontra
      exact absurd hcontra hshort

/-- Later rows that register none of the watched keys leave them intact. -/
theorem foldl_pcStep_keeps : ∀ (post : List Record) (coords : PCTable) (k : Str),
    (∀ r ∈ post, k ∉ regKeys r) →
    lookupA (post.foldl pcStep coords) k = lookupA coords k := by
  intro post
  induction post with
  | nil => intro coords k _; rfl
  | cons r rs ih =>
    intro coords k hall
    rw [List.foldl_cons]
    rw [ih (pcStep coords r) k (fun r2 h2 => hall r2 (List.mem_cons_of_mem r h2))]
    exact pcStep_preserves (hall r (List.mem_cons_self r rs))

/-- C10 (counterexample): in a reference table whose second entry's full name
equals the first entry's bracket-stripped short name, the dict assignment of
the second entry overwrites the short key, so `"Ontario [CA-ON]"` and
`"Ontario"` no longer resolve to the same coordinate — refuting the claim as
stated for every table. -/
theorem province_coords_overwrite_counterexample :
    lookupA (load_province_coords C10tab) (cs "Ontario [CA-ON]")
        = some (mkRat 1 1, mkRat 2 1) ∧
    lookupA (load_province_coords C10tab) (cs "Ontario")
        = some (mkRat 3 1, mkRat 4 1) ∧
    ((mkRat 1 1, mkRat 2 1) : ℚ × ℚ) ≠ (mkRat 3 1, mkRat 4 1) := by
  refine ⟨by decide, by decide, by decide⟩

/-- C10 (amended): for every reference entry with a non-empty name and
parseable latitude/longitude such that no later entry registers either of its
keys, the loaded table maps the full name — and, when non-empty and
different, the portion before the bracketed suffix — to that entry's
coordinate, so both forms resolve to the same coordinate.  (Unconditionally
the claim fails: a later entry can overwrite a key, see the
counterexample.) -/
theorem province_coords_registration (pre post : List Record) (row : Record)
    (c : ℚ × ℚ)
    (hname : pyStrip (getStr row provNameCol) ≠ [])
    (hc : pcLatLon row = some c)
    (hpost : ∀ r ∈ post, pyStrip (getStr row provNameCol) ∉ regKeys r ∧
        shortName (pyStrip (getStr row provNameCol)) ∉ regKeys r) :
    lookupA (load_province_coords (pre ++ row :: post))
        (pyStrip (getStr row provNameCol)) = some c ∧
    (shortName (pyStrip (getStr row provNameCol)) ≠ [] ∧
        shortName (pyStrip (getStr row provNameCol))
          ≠ pyStrip (getStr row provNameCol) →
      lookupA (load_province_coords (pre ++ row :: post))
          (shortName (pyStrip (getStr row provNameCol))) = some c) := by
  have hsets := pcStep_sets (pre.foldl pcStep []) hname hc
  have hload : load_province_coords (pre ++ row :: post)
      = post.foldl pcStep (pcStep (pre.foldl pcStep []) row) := by
    rw [load_province_coords, List.foldl_append, List.foldl_cons]
  constructor
  · rw [hload, foldl_pcStep_keeps post _ _ (fun r h => (hpost r h).1)]
    exact hsets.1
  · intro hs
    rw [hload, foldl_pcStep_keeps post _ _ (fun r h => (hpost r h).2)]
    exact hsets.2 hs

/-- C10 (witness): the amended claim at a one-row table: both
`"Ontario [CA-ON]"` and `"Ontario"` resolve to `(43.7, -79.4)`. -/
theorem province_coords_registration_witness :
    lookupA (load_province_coords [C10wrow])
        (pyStrip (getStr C10wrow provNameCol))
        = some (mkRat 437 10, -(mkRat 794 10)) ∧
    lookupA (load_province_coords [C10wrow])
        (shortName (pyStrip (getStr C10wrow provNameCol)))
        = some (mkRat 437 10, -(mkRat 794 10)) := by
  have h := province_coords_registration [] [] C10wrow
    (mkRat 437 10, -(mkRat 794 10)) (by decide) (by decide)
    (fun r hr => absurd hr (List.not_mem_nil r))
  exact ⟨h.1, h.2 (by decide)⟩

-- ### Theorems (fifth batch: the Quantitative Nester)

/-- Characters are determined by their code points. -/
theorem char_toNat_inj {a b : Char} (h : a.toNat = b.toNat) : a = b :=
  Char.ext (UInt32.ext h)

/-- String comparison never puts a string below itself. -/
theorem strLtB_irrefl : ∀ a : Str, strLtB a a = false := by
  intro a
  induction a with
  | nil => rfl
  | cons x xs ih => simp [strLtB, ih]

/-- String comparison is asymmetric. -/
theorem strLtB_asymm : ∀ a b : Str, strLtB a b = true → strLtB b a = false := by
  intro a
  induction a with
  | nil =>
    intro b h
    cases b with
    | nil => exact absurd h (by simp [strLtB])
    | cons y ys => rfl
  | cons x xs ih =>
    intro b h
    cases b with
    | nil => simp [strLtB] at h
    | cons y ys =>
      rw [strLtB] at h ⊢
      by_cases hxy : x = y
      · rw [if_pos hxy] at h
        rw [if_pos hxy.symm]
        exact ih ys h
      · rw [if_neg hxy] at h
        rw [if_neg (fun hyx => hxy hyx.symm)]
        simp only [decide_eq_true_eq] at h
        simp only [decide_eq_false_iff_not]
        omega

/-- Non-strict string comparison is transitive. -/
theorem strLtB_negtrans :
    ∀ a b c : Str, strLtB a b = false → strLtB b c = false →
      strLtB a c = false := by
  intro a
  induction a with
  | nil =>
    intro b c hab hbc
    cases b with
    | nil =>
      cases c with
      | nil => rfl
      | cons z zs => simp [strLtB] at hbc
    | cons y ys => simp [strLtB] at hab
  | cons x xs ih =>
    intro b c hab hbc
    cases b with
    | nil =>
      cases c with
      | nil => rfl
      | cons z zs => simp [strLtB] at hbc
    | cons y ys =>
      cases c with
      | nil => rfl
      | cons z zs =>
        rw [strLtB] at hab hbc ⊢
        by_cases hxy : x = y
        · rw [if_pos hxy] at hab
          by_cases hyz : y = z
          · rw [if_pos hyz] at hbc
            rw [if_pos (hxy.trans hyz)]
            exact ih ys zs hab hbc
          · rw [if_neg hyz] at hbc
            rw [if_neg (fun hxz => hyz (hxy.symm.trans hxz))]
            rw [hxy]
            exact hbc
        · rw [if_neg hxy] at hab
          simp only [decide_eq_false_iff_not] at hab
          by_cases hyz : y = z
          · rw [if_neg (fun hxz => hxy (hxz.trans hyz.symm))]
            simp only [decide_eq_false_iff_not]
            rw [← hyz]
            exact hab
          · rw [if_neg hyz] at hbc
            simp only [decide_eq_false_iff_not] at hbc
            by_cases hxz : x = z
            · exfalso
              have h1 : x.toNat = z.toNat := by rw [hxz]
              have h2 : x.toNat = y.toNat := by omega
              exact hxy (char_toNat_inj h2)
            · rw [if_neg hxz]
              simp only [decide_eq_false_iff_not]
              omega

/-- The sentinel-last key comparison is asymmetric. -/
theorem sentLt_asymm : ∀ a b : Str, sentLt a b = true → sentLt b a = false := by
  intro a b h
  rcases hsa : isSent a <;> rcases hsb : isSent b <;>
    simp [sentLt, hsa, hsb] at h ⊢ <;>
    (try exact strLtB_asymm _ _ h)

/-- The negation of the sentinel-last key comparison is transitive. -/
theorem sentLt_negtrans :
    ∀ x y z : Str, sentLt x y = false → sentLt y z = false →
      sentLt x z = false := by
  intro x y z hxy hyz
  rcases hsx : isSent x <;> rcases hsy : isSent y <;> rcases hsz : isSent z <;>
    simp [sentLt, hsx, hsy, hsz] at hxy hyz ⊢ <;>
    (try exact strLtB_negtrans _ _ _ hxy hyz)

/-- Updating a key binds it to `f` of the previous (or default) value. -/
theorem lookupA_updateA_self {α : Type} :
    ∀ (m : List (Str × α)) (k : Str) (f : α → α) (d : α),
      lookupA (updateA m k f d) k = some (f ((lookupA m k).getD d)) := by
  intro m
  induction m with
  | nil => intro k f d; simp [updateA, lookupA]
  | cons p rest ih =>
    intro k f d
    obtain ⟨k', x⟩ := p
    rw [updateA]
    by_cases h : k' = k
    · rw [if_pos h]
      simp [lookupA, h]
    · rw [if_neg h]
      simp only [lookupA, if_neg h]
      exact ih k f d

/-- Updating a key leaves the others unchanged. -/
theorem lookupA_updateA_ne {α : Type} :
    ∀ (m : List (Str × α)) (k : Str) (f : α → α) (d : α) (k' : Str), k' ≠ k →
      lookupA (updateA m k f d) k' = lookupA m k' := by
  intro m
  induction m with
  | nil =>
    intro k f d k' hne
    show lookupA [(k, f d)] k' = lookupA [] k'
    simp only [lookupA]
    rw [if_neg (fun h => hne h.symm)]
  | cons p rest ih =>
    intro k f d k' hne
    obtain ⟨k0, x⟩ := p
    rw [updateA]
    by_cases h : k0 = k
    · rw [if_pos h]
      simp only [lookupA]
      by_cases h2 : k0 = k'
      · exact absurd (h2.symm.trans h) hne
      · rw [if_neg (h ▸ h2), if_neg h2]
    · rw [if_neg h]
      simp only [lookupA]
      by_cases h2 : k0 = k'
      · rw [if_pos h2, if_pos h2]
      · rw [if_neg h2, if_neg h2]
        exact ih k f d k' hne

/-- The empty tree has empty leaves everywhere. -/
theorem leafAt_emptyT : ∀ (n : Nat) (p : List Str), leafAt n (emptyT n) p = [] := by
  intro n p
  cases n with
  | zero => rfl
  | succ n =>
    cases p with
    | nil => rfl
    | cons k ks => rfl

/-- Inserting a value at path `q` appends it to the leaf at `q` and leaves
every other leaf unchanged. -/
theorem leafAt_insertT : ∀ (n : Nat) (t : NTreeN n) (p q : List Str) (v : Str),
    p.length = n → q.length = n →
    leafAt n (insertT n t q v) p
      = if p = q then leafAt n t p ++ [v] else leafAt n t p := by
  intro n
  induction n with
  | zero =>
    intro t p q v hp hq
    have hp0 : p = [] := List.length_eq_zero.1 hp
    have hq0 : q = [] := List.length_eq_zero.1 hq
    subst hp0
    subst hq0
    simp [insertT, leafAt]
  | succ n ih =>
    intro t p q v hp hq
    cases p with
    | nil => simp at hp
    | cons a p2 =>
      cases q with
      | nil => simp at hq
      | cons b q2 =>
        have hp2 : p2.length = n := by simpa using hp
        have hq2 : q2.length = n := by simpa using hq
        simp only [insertT, leafAt]
        by_cases hab : a = b
        · subst hab
          simp only [lookupA_updateA_self]
          rw [ih _ p2 q2 v hp2 hq2]
          rcases hsub : lookupA t a with _ | sub
          · simp only [hsub, Option.getD_none]
            rw [leafAt_emptyT]
            by_cases hpq : p2 = q2
            · rw [if_pos hpq, if_pos (by rw [hpq])]
            · rw [if_neg hpq,
                if_neg (fun hcon => hpq (by injection hcon))]
          · simp only [hsub, Option.getD_some]
            by_cases hpq : p2 = q2
            · rw [if_pos hpq, if_pos (by rw [hpq])]
            · rw [if_neg hpq,
                if_neg (fun hcon => hpq (by injection hcon))]
        · rw [lookupA_updateA_ne t b _ _ a hab]
          rw [if_neg (fun hcon => hab (by injection hcon))]

/-- Every key path has exactly eight components. -/
theorem pathOf_length (r : Record) : (pathOf r).length = 8 := by
  simp [pathOf, NEST_ORDER]

/-- The leaf at `p` after folding the insertions collects, in order, the
values of the sub-records whose path is `p`. -/
theorem leafAt_buildFold :
    ∀ (subs : List Record) (t0 : NTreeN 8) (p : List Str), p.length = 8 →
      leafAt 8 (subs.foldl (fun t r => insertT 8 t (pathOf r) (valueOf r)) t0) p
        = leafAt 8 t0 p
            ++ (subs.filter (fun r => decide (pathOf r = p))).map valueOf := by
  intro subs
  induction subs with
  | nil => intro t0 p hp; simp
  | cons r rs ih =>
    intro t0 p hp
    rw [List.foldl_cons, ih _ p hp]
    rw [leafAt_insertT 8 t0 p (pathOf r) (valueOf r) hp (pathOf_length r)]
    by_cases hpr : pathOf r = p
    · rw [if_pos hpr.symm]
      rw [List.filter_cons, if_pos (by simp [hpr])]
      simp
    · rw [if_neg (fun h => hpr h.symm)]
      rw [List.filter_cons, if_neg (by simp [hpr])]

/-- `updateA` keeps the key list, appending the key only when new. -/
theorem updateA_keys {α : Type} :
    ∀ (m : List (Str × α)) (k : Str) (f : α → α) (d : α),
      (updateA m k f d).map Prod.fst =
        if k ∈ m.map Prod.fst then m.map Prod.fst
        else m.map Prod.fst ++ [k] := by
  intro m
  induction m with
  | nil => intro k f d; simp [updateA]
  | cons p rest ih =>
    intro k f d
    obtain ⟨k', x⟩ := p
    rw [updateA]
    by_cases h : k' = k
    · rw [if_pos h]
      subst h
      simp only [List.map_cons]
      rw [if_pos (List.mem_cons_self _ _)]
    · rw [if_neg h]
      simp only [List.map_cons, List.mem_cons]
      rw [ih k f d]
      by_cases hmem : k ∈ rest.map Prod.fst
      · rw [if_pos hmem, if_pos (Or.inr hmem)]
      · rw [if_neg hmem, if_neg (by
          intro hor
          rcases hor with h1 | h1
          · exact h h1.symm
          · exact hmem h1)]
        simp

/-- Membership after an update: an entry is an old one, or carries the
updated key with `f` of the default or of an old value. -/
theorem mem_updateA {α : Type} :
    ∀ (m : List (Str × α)) (k : Str) (f : α → α) (d : α) (kv : Str × α),
      kv ∈ updateA m k f d →
      kv ∈ m ∨ kv.2 = f d ∨ ∃ x, (k, x) ∈ m ∧ kv.2 = f x := by
  intro m
  induction m with
  | nil =>
    intro k f d kv h
    simp only [updateA] at h
    rw [List.mem_singleton] at h
    subst h
    exact Or.inr (Or.inl rfl)
  | cons p rest ih =>
    intro k f d kv h
    obtain ⟨k', x⟩ := p
    rw [updateA] at h
    by_cases hk : k' = k
    · rw [if_pos hk] at h
      rcases List.mem_cons.1 h with h1 | h1
      · subst h1
        exact Or.inr (Or.inr ⟨x, by rw [hk]; exact List.mem_cons_self _ _, rfl⟩)
      · exact Or.inl (List.mem_cons_of_mem _ h1)
    · rw [if_neg hk] at h
      rcases List.mem_cons.1 h with h1 | h1
      · exact Or.inl (h1 ▸ List.mem_cons_self _ _)
      · rcases ih k f d kv h1 with h2 | h2 | ⟨y, hy1, hy2⟩
        · exact Or.inl (List.mem_cons_of_mem _ h2)
        · exact Or.inr (Or.inl h2)
        · exact Or.inr (Or.inr ⟨y, List.mem_cons_of_mem _ hy1, hy2⟩)

/-- The empty tree has distinct keys at every level. -/
theorem nodupT_emptyT : ∀ n : Nat, nodupT n (emptyT n) := by
  intro n
  cases n with
  | zero => exact trivial
  | succ n => exact ⟨List.nodup_nil, fun kv h => absurd h (List.not_mem_nil kv)⟩

/-- Insertion preserves key distinctness at every level. -/
theorem nodupT_insertT : ∀ (n : Nat) (t : NTreeN n) (q : List Str) (v : Str),
    q.length = n → nodupT n t → nodupT n (insertT n t q v) := by
  intro n
  induction n with
  | zero => intro t q v _ _; exact trivial
  | succ n ih =>
    intro t q v hq hnd
    cases q with
    | nil => simp at hq
    | cons b q2 =>
      have hq2 : q2.length = n := by simpa using hq
      obtain ⟨hkeys, hsubs⟩ := hnd
      constructor
      · rw [insertT, updateA_keys]
        by_cases hmem : b ∈ (t : List (Str × NTreeN n)).map Prod.fst
        · rw [if_pos hmem]
          exact hkeys
        · rw [if_neg hmem]
          rw [List.nodup_append]
          refine ⟨hkeys, List.nodup_singleton b, ?_⟩
          intro x hx hx1
          rw [List.mem_singleton] at hx1
          subst hx1
          exact hmem hx
      · intro kv hkv
        rcases mem_updateA t b _ (emptyT n) kv hkv with h1 | h1 | ⟨y, hy1, hy2⟩
        · exact hsubs kv h1
        · rw [h1]
          exact ih (emptyT n) q2 v hq2 (nodupT_emptyT n)
        · rw [hy2]
          exact ih y q2 v hq2 (hsubs (b, y) hy1)

/-- The built tree has distinct keys at every level. -/
theorem nodupT_buildNested (subs : List Record) :
    nodupT 8 (buildNested subs) := by
  rw [buildNested]
  have hgen : ∀ (l : List Record) (t0 : NTreeN 8), nodupT 8 t0 →
      nodupT 8 (l.foldl (fun t r => insertT 8 t (pathOf r) (valueOf r)) t0) := by
    intro l
    induction l with
    | nil => intro t0 h; exact h
    | cons r rs ih2 =>
      intro t0 h
      rw [List.foldl_cons]
      exact ih2 _ (nodupT_insertT 8 t0 (pathOf r) (valueOf r) (pathOf_length r) h)
  exact hgen subs (emptyT 8) (nodupT_emptyT 8)

/-- A successful lookup is a membership. -/
theorem lookupA_mem {α : Type} :
    ∀ {m : List (Str × α)} {k : Str} {v : α},
      lookupA m k = some v → (k, v) ∈ m := by
  intro m
  induction m with
  | nil => intro k v h; simp [lookupA] at h
  | cons p rest ih =>
    intro k v h
    obtain ⟨k', x⟩ := p
    rw [lookupA] at h
    by_cases hk : k' = k
    · rw [if_pos hk] at h
      rw [Option.some_inj] at h
      subst hk
      subst h
      exact List.mem_cons_self _ _
    · rw [if_neg hk] at h
      exact List.mem_cons_of_mem _ (ih h)

/-- A failed lookup means the key is absent. -/
theorem lookupA_eq_none_iff {α : Type} :
    ∀ (m : List (Str × α)) (k : Str),
      lookupA m k = none ↔ k ∉ m.map Prod.fst := by
  intro m
  induction m with
  | nil => intro k; simp [lookupA]
  | cons p rest ih =>
    intro k
    obtain ⟨k', x⟩ := p
    rw [lookupA]
    by_cases hk : k' = k
    · rw [if_pos hk]
      subst hk
      simp only [List.map_cons, List.mem_cons]
      constructor
      · intro h
        exact (Option.some_ne_none x h).elim
      · intro h
        exact absurd (Or.inl trivial) h
    · rw [if_neg hk]
      simp only [List.map_cons, List.mem_cons]
      rw [ih k]
      constructor
      · intro h1 h2
        rcases h2 with h3 | h3
        · exact hk h3.symm
        · exact h1 h3
      · intro h1
        intro h3
        exact h1 (Or.inr h3)

/-- With distinct keys a successful lookup is exactly a membership. -/
theorem lookupA_eq_some_iff {α : Type} :
    ∀ (m : List (Str × α)), (m.map Prod.fst).Nodup → ∀ (k : Str) (v : α),
      (lookupA m k = some v ↔ (k, v) ∈ m) := by
  intro m
  induction m with
  | nil => intro _ k v; simp [lookupA]
  | cons p rest ih =>
    intro hnd k v
    obtain ⟨k', x⟩ := p
    simp only [List.map_cons, List.nodup_cons] at hnd
    obtain ⟨hk', hrest⟩ := hnd
    rw [lookupA]
    by_cases hk : k' = k
    · rw [if_pos hk]
      subst hk
      constructor
      · intro h
        rw [Option.some_inj] at h
        subst h
        exact List.mem_cons_self _ _
      · intro h
        rcases List.mem_cons.1 h with h1 | h1
        · rw [Option.some_inj]
          exact (Prod.mk.injEq _ _ _ _ ▸ h1).2.symm
        · exfalso
          exact hk' (List.mem_map.2 ⟨(k', v), h1, rfl⟩)
    · rw [if_neg hk]
      rw [ih hrest k v]
      constructor
      · exact fun h => List.mem_cons_of_mem _ h
      · intro h
        rcases List.mem_cons.1 h with h1 | h1
        · exact absurd (congrArg Prod.fst h1).symm hk
        · exact h1

/-- Lookup is invariant under permutation when keys are distinct. -/
theorem lookupA_perm {α : Type} {m m' : List (Str × α)} (hperm : m.Perm m')
    (hnd : (m.map Prod.fst).Nodup) (k : Str) :
    lookupA m k = lookupA m' k := by
  have hnd' : (m'.map Prod.fst).Nodup := ((hperm.map Prod.fst).nodup hnd)
  rcases h : lookupA m k with _ | v
  · rw [lookupA_eq_none_iff] at h
    rw [eq_comm, lookupA_eq_none_iff]
    intro hmem
    exact h ((hperm.map Prod.fst).mem_iff.2 hmem)
  · rw [lookupA_eq_some_iff m hnd k v] at h
    rw [eq_comm, lookupA_eq_some_iff m' hnd' k v]
    exact hperm.mem_iff.1 h

/-- Lookup commutes with mapping the values. -/
theorem lookupA_map_snd {α β : Type} (g : α → β) :
    ∀ (m : List (Str × α)) (k : Str),
      lookupA (m.map (fun kv => (kv.1, g kv.2))) k = (lookupA m k).map g := by
  intro m
  induction m with
  | nil => intro k; rfl
  | cons p rest ih =>
    intro k
    obtain ⟨k', x⟩ := p
    simp only [List.map_cons, lookupA]
    by_cases hk : k' = k
    · rw [if_pos hk, if_pos hk]
      rfl
    · rw [if_neg hk, if_neg hk]
      exact ih k

/-- The number of entries of an index-keyed mapping is the list length. -/
theorem indexed_length (vs : List Str) : (indexed vs).length = vs.length := by
  simp [indexed]

/-- Rendering preserves the leaf at every path (up to index-keying), for
trees with distinct keys. -/
theorem leafAtR_to_sorted_dict :
    ∀ (n : Nat) (t : NTreeN n) (p : List Str), nodupT n t →
      leafAtR n (to_sorted_dict n t) p = indexed (leafAt n t p) := by
  intro n
  induction n with
  | zero => intro t p _; rfl
  | succ n ih =>
    intro t p hnd
    obtain ⟨hkeys, hsubs⟩ := hnd
    cases p with
    | nil => rfl
    | cons k ks =>
      simp only [to_sorted_dict, leafAtR, leafAt]
      have hmkeys : ((t : List (Str × NTreeN n)).map
            (fun kv => (kv.1, to_sorted_dict n kv.2))).map Prod.fst
          = (t : List (Str × NTreeN n)).map Prod.fst := by
        rw [List.map_map]
        rfl
      have hperm := insSort_perm (fun a b => sentLt a.1 b.1)
        ((t : List (Str × NTreeN n)).map (fun kv => (kv.1, to_sorted_dict n kv.2)))
      rw [← lookupA_perm hperm.symm (by rw [hmkeys]; exact hkeys) k]
      rw [lookupA_map_snd (to_sorted_dict n) t k]
      rcases hsub : lookupA t k with _ | sub
      · rfl
      · simp only [Option.map_some']
        exact ih sub ks (hsubs (k, sub) (lookupA_mem hsub))

/-- `pairwiseB` agrees with `List.Pairwise`. -/
theorem pairwiseB_iff {α : Type} (p : α → α → Bool) :
    ∀ l : List α, pairwiseB p l = true ↔ l.Pairwise (fun x y => p x y = true) := by
  intro l
  induction l with
  | nil => simp [pairwiseB]
  | cons a rest ih =>
    simp only [pairwiseB, Bool.and_eq_true, List.all_eq_true, List.pairwise_cons]
    rw [ih]

/-- The rendered tree is ordered at every level: sibling keys are pairwise
non-inverted under the sentinel-last comparison, recursively. -/
theorem orderedB_to_sorted_dict :
    ∀ (n : Nat) (t : NTreeN n), orderedB n (to_sorted_dict n t) = true := by
  intro n
  induction n with
  | zero => intro t; rfl
  | succ n ih =>
    intro t
    simp only [to_sorted_dict, orderedB, Bool.and_eq_true]
    constructor
    · rw [pairwiseB_iff]
      have hpw := insSort_pairwise (fun a b => sentLt a.1 b.1)
        (fun (x y : Str × RenderT n) h => sentLt_asymm x.1 y.1 h)
        (fun (x y z : Str × RenderT n) h1 h2 => sentLt_negtrans x.1 y.1 z.1 h1 h2)
        ((t : List (Str × NTreeN n)).map (fun kv => (kv.1, to_sorted_dict n kv.2)))
      exact hpw.imp (fun hab => by rw [hab]; rfl)
    · rw [List.all_eq_true]
      intro kv hkv
      have hmem := (insSort_perm (fun (a b : Str × RenderT n) => sentLt a.1 b.1)
        ((t : List (Str × NTreeN n)).map
          (fun kv => (kv.1, to_sorted_dict n kv.2)))).mem_iff.1 hkv
      obtain ⟨kv0, _, hkv0⟩ := List.mem_map.1 hmem
      rw [← hkv0]
      exact ih kv0.2

/-- C4: in the rendered tree, the leaf index-keyed mapping at every full
8-key path has exactly as many entries as there are surviving sub-records
whose (bracket-stripped, sentinel-substituted) key components equal that
path, and every level lists its sibling keys in case-sensitive (code point)
order with the sentinel labels `"(blank)"` / `"(no date)"` after all other
keys. -/
theorem quant_tree_properties (fieldnames : List Str) (rows : List Record)
    (p : List Str) (hp : p.length = 8) :
    (leafAtR 8 (quantTree fieldnames rows) p).length
      = ((surviving fieldnames rows).filter
          (fun r => decide (pathOf r = p))).length ∧
    orderedB 8 (quantTree fieldnames rows) = true := by
  constructor
  · have hnd : nodupT 8 (buildNested (sortedSubs fieldnames rows)) :=
      nodupT_buildNested _
    have h1 : quantTree fieldnames rows
        = to_sorted_dict 8 (buildNested (sortedSubs fieldnames rows)) := rfl
    rw [h1, leafAtR_to_sorted_dict 8 _ p hnd, indexed_length]
    rw [buildNested, leafAt_buildFold (sortedSubs fieldnames rows) (emptyT 8) p hp]
    rw [leafAt_emptyT]
    simp only [List.nil_append, List.length_map]
    rw [← List.countP_eq_length_filter, ← List.countP_eq_length_filter]
    exact (insSort_perm ltDate (surviving fieldnames rows)).countP_eq
      (fun r => decide (pathOf r = p))
  · exact orderedB_to_sorted_dict 8 _

/-- C4 (witness): the invariants at a single record populating only the
slot-1 taxonomic name, whose sub-record has path
`[(blank)×4, "X", (blank)×2, (no date)]`. -/
theorem quant_tree_properties_witness :
    (leafAtR 8 (quantTree METADATA_COLUMNS [C4row]) C4path).length
      = ((surviving METADATA_COLUMNS [C4row]).filter
          (fun r => decide (pathOf r = C4path))).length ∧
    orderedB 8 (quantTree METADATA_COLUMNS [C4row]) = true :=
  quant_tree_properties METADATA_COLUMNS [C4row] C4path (by decide)

/-- Assigning a fresh key appends it. -/
theorem insertOv_append_of_not_mem {α : Type} :
    ∀ {acc : List (Str × α)} {k : Str} (v : α), k ∉ acc.map Prod.fst →
      insertOv acc k v = acc ++ [(k, v)] := by
  intro acc
  induction acc with
  | nil => intro k v _; rfl
  | cons p rest ih =>
    intro k v h
    obtain ⟨k', x⟩ := p
    simp only [List.map_cons, List.mem_cons] at h
    rw [insertOv, if_neg (fun hx => h (Or.inl hx.symm))]
    rw [ih v (fun hx => h (Or.inr hx))]
    rfl

/-- Folding dict assignments with pairwise fresh keys just concatenates. -/
theorem foldl_insertOv_nodup {α : Type} :
    ∀ (ps : List (Str × α)) (acc : List (Str × α)),
      ((acc ++ ps).map Prod.fst).Nodup →
      ps.foldl (fun a kv => insertOv a kv.1 kv.2) acc = acc ++ ps := by
  intro ps
  induction ps with
  | nil => intro acc _; simp
  | cons kv rest ih =>
    intro acc hnd
    rw [List.foldl_cons]
    have hfresh : kv.1 ∉ acc.map Prod.fst := by
      intro hmem
      rw [List.map_append, List.nodup_append] at hnd
      exact hnd.2.2 hmem (by rw [List.map_cons]; exact List.mem_cons_self _ _)
    rw [insertOv_append_of_not_mem kv.2 hfresh]
    have hnd2 : (((acc ++ [(kv.1, kv.2)]) ++ rest).map Prod.fst).Nodup := by
      have : (acc ++ [(kv.1, kv.2)]) ++ rest = acc ++ (kv.1, kv.2) :: rest := by
        simp
      rw [this]
      exact hnd
    rw [ih (acc ++ [(kv.1, kv.2)]) hnd2]
    simp

/-- Projecting the keys out of a keyed `map` gives back the list. -/
theorem map_fst_keyed {α : Type} (g : Str → α) :
    ∀ l : List Str, (l.map (fun c => (c, g c))).map Prod.fst = l := by
  intro l
  induction l with
  | nil => rfl
  | cons a l ih => simp only [List.map_cons, ih]

/-- The keys of a sub-record's assignments, in order. -/
theorem mkOutAssigns_keys (fieldnames : List Str) (row : Record) (t : Nat) :
    (mkOutAssigns fieldnames row t).map Prod.fst
      = meta_ok fieldnames ++ [targetKey] ++ TARGET_BASE_NAMES := by
  rw [mkOutAssigns, List.map_append, List.map_append, map_fst_keyed,
    map_fst_keyed]
  rfl

/-- Those keys are pairwise distinct (the metadata, the `"target"` marker and
the seven canonical target fields never collide). -/
theorem mkOut_keys_nodup (fieldnames : List Str) (row : Record) (t : Nat) :
    ((mkOutAssigns fieldnames row t).map Prod.fst).Nodup := by
  rw [mkOutAssigns_keys]
  have hsub : meta_ok fieldnames ++ [targetKey] ++ TARGET_BASE_NAMES
      |>.Sublist (METADATA_COLUMNS ++ [targetKey] ++ TARGET_BASE_NAMES) :=
    ((List.filter_sublist _).append (List.Sublist.refl _)).append
      (List.Sublist.refl _)
  exact List.Nodup.sublist hsub
    (by decide : (METADATA_COLUMNS ++ [targetKey] ++ TARGET_BASE_NAMES).Nodup)

/-- Since the assignment keys never collide, the sub-record dict is just the
assignment list. -/
theorem mkOut_eq (fieldnames : List Str) (row : Record) (t : Nat) :
    mkOut fieldnames row t = mkOutAssigns fieldnames row t := by
  rw [mkOut]
  have h := foldl_insertOv_nodup (mkOutAssigns fieldnames row t) []
    (by simpa using mkOut_keys_nodup fieldnames row t)
  rw [h]
  simp

/-- Lookup skips a prefix that lacks the key. -/
theorem lookupA_append_right {α : Type} :
    ∀ (l1 l2 : List (Str × α)) (k : Str), k ∉ l1.map Prod.fst →
      lookupA (l1 ++ l2) k = lookupA l2 k := by
  intro l1
  induction l1 with
  | nil => intro l2 k _; rfl
  | cons p rest ih =>
    intro l2 k h
    obtain ⟨k', x⟩ := p
    simp only [List.map_cons, List.mem_cons] at h
    rw [List.cons_append, lookupA, if_neg (fun hx => h (Or.inl hx.symm))]
    exact ih l2 k (fun hx => h (Or.inr hx))

/-- Lookup in a keyed `map` of a list containing the key. -/
theorem lookupA_map_self {α : Type} (g : Str → α) :
    ∀ (l : List Str) (k : Str), k ∈ l →
      lookupA (l.map (fun b => (b, g b))) k = some (g k) := by
  intro l
  induction l with
  | nil => intro k h; exact absurd h (List.not_mem_nil k)
  | cons b rest ih =>
    intro k h
    simp only [List.map_cons, lookupA]
    by_cases hb : b = k
    · rw [if_pos hb, hb]
    · rw [if_neg hb]
      exact ih k (by
        rcases List.mem_cons.1 h with h1 | h1
        · exact absurd h1.symm hb
        · exact h1)

/-- No target field name collides with a metadata column or the `"target"`
marker. -/
theorem tbn_keys_fresh :
    ∀ x ∈ TARGET_BASE_NAMES, x ∉ METADATA_COLUMNS ∧ x ≠ targetKey := by
  decide

/-- C9: every source record expands into exactly 3 sub-records (one per
target slot), the target-specific canonical fields number seven, a
sub-record passes the filter iff at least one of those seven fields is
non-empty after trimming, and each canonical field of the slot-`t`
sub-record holds the trimmed value of the corresponding ` {base} {t}` source
column. -/
theorem target_expansion_properties (fieldnames : List Str) (row : Record) :
    (expandRecord fieldnames row).length = 3 ∧
    TARGET_BASE_NAMES.length = 7 ∧
    (∀ r ∈ expandRecord fieldnames row,
      (has_target_info r = true ↔
        ∃ b ∈ TARGET_BASE_NAMES, pyStrip (getStr r b) ≠ [])) ∧
    (∀ t ∈ ([1, 2, 3] : List Nat), ∀ b ∈ TARGET_BASE_NAMES,
      getStr (mkOut fieldnames row t) b
        = pyStrip (getStr row (slotCol b t))) := by
  refine ⟨rfl, rfl, ?_, ?_⟩
  · intro r _
    rw [has_target_info, List.any_eq_true]
    constructor
    · rintro ⟨b, hb, hbe⟩
      refine ⟨b, hb, ?_⟩
      intro hcon
      rw [hcon] at hbe
      simp at hbe
    · rintro ⟨b, hb, hbe⟩
      refine ⟨b, hb, ?_⟩
      cases hie : (pyStrip (getStr r b)).isEmpty
      · rfl
      · exact absurd (List.isEmpty_iff.1 hie) hbe
  · intro t _ b hb
    obtain ⟨hb1, hb2⟩ := tbn_keys_fresh b hb
    rw [getStr, mkOut_eq, mkOutAssigns]
    have hnot : b ∉ ((meta_ok fieldnames).map
        (fun c => (c, pyStrip (getStr row c)))
          ++ [(targetKey, cs (toString t))]).map Prod.fst := by
      rw [List.map_append]
      rw [List.mem_append]
      intro hor
      rcases hor with h1 | h1
      · rw [List.map_map] at h1
        have h2 : b ∈ meta_ok fieldnames := by
          simpa [Function.comp] using h1
        exact hb1 (List.mem_filter.1 h2).1
      · simp at h1
        exact hb2 h1
    rw [lookupA_append_right _ _ b hnot]
    rw [lookupA_map_self _ TARGET_BASE_NAMES b hb]
    rfl

/-- C9 (witness): the expansion properties at a record whose only populated
column is `"target taxonomic name 1"`. -/
theorem target_expansion_properties_witness :
    (expandRecord METADATA_COLUMNS C4row).length = 3 ∧
    (has_target_info (mkOut METADATA_COLUMNS C4row 1) = true ↔
      ∃ b ∈ TARGET_BASE_NAMES,
        pyStrip (getStr (mkOut METADATA_COLUMNS C4row 1) b) ≠ []) ∧
    getStr (mkOut METADATA_COLUMNS C4row 1) (cs "target taxonomic name")
      = pyStrip (getStr C4row (slotCol (cs "target taxonomic name") 1)) := by
  have h := target_expansion_properties METADATA_COLUMNS C4row
  exact ⟨h.1, h.2.2.1 (mkOut METADATA_COLUMNS C4row 1) (by decide),
    h.2.2.2 1 (by decide) (cs "target taxonomic name") (by decide)⟩
